import Mathlib

/-!
# Verification of the slang URM assembler and machine

A shallow embedding of the slang register-machine assembler and execution
engine (`src/program.rs`, `src/machine.rs`, `src/error.rs`, `src/prologue.rs`),
together with proofs about the embedded definitions.

Modelling conventions, used consistently below:

* Rust `usize` values are modelled as `Nat`; wherever the source performs
  `usize` arithmetic that can overflow or underflow, the model checks the
  bound `USIZE_MAX = 2^64 - 1` explicitly and fails (Rust's checked/debug
  semantics: overflow, underflow and out-of-bounds indexing panic).
  Every such potential panic is modelled as an explicit failure value.
* Strings are modelled as `List Char`.  The regex character class `\w` is
  modelled as `[A-Za-z0-9_]` (the sources and the grammar are ASCII).
  `str::trim` is modelled as trimming ASCII whitespace.
* The regexes in the source are small and concrete; each is embedded as a
  deterministic scanner with the same matching semantics (greedy `\d+`/`\w+`
  runs followed by non-word context make backtracking unnecessary, except in
  user macro patterns, where an explicit backtracking matcher with a fuel
  budget mirrors `fancy_regex`'s backtrack limit: exhausting the budget is an
  error, as `fancy_regex::Regex::captures` returns `Result`).
* Fallible Rust code (`Result<_, Box<dyn Error>>`) becomes `Except PErr _`.
-/

namespace Slang

/-- `usize::MAX` on a 64-bit target. -/
def USIZE_MAX : Nat := 18446744073709551615

/-- ASCII decimal digit, the regex class `\d`. -/
def isDigit (c : Char) : Bool := '0' ≤ c && c ≤ '9'

/-- The regex word class `\w`, modelled as ASCII `[A-Za-z0-9_]`. -/
def isWordChar (c : Char) : Bool :=
  ('a' ≤ c && c ≤ 'z') || ('A' ≤ c && c ≤ 'Z') || isDigit c || c = '_'

/-- Numeric value of an ASCII digit. -/
def digVal (c : Char) : Nat := c.toNat - 48

/-- Decimal digit character for `d < 10`. -/
def digChar (d : Nat) : Char := Char.ofNat (48 + d)

/-- Most-significant-first decimal digits of `n` (empty for `0`); the fuel
argument bounds the recursion and any `fuel > n` computes the digits. -/
def natDigitsAux : Nat → Nat → List Char
  | 0, _ => []
  | fuel + 1, n => if n = 0 then [] else natDigitsAux fuel (n / 10) ++ [digChar (n % 10)]

/-- Decimal rendering of a natural number, as Rust's `Display for usize`
produces it (no sign, no leading zeros, `"0"` for zero). -/
def natChars (n : Nat) : List Char :=
  if n = 0 then ['0'] else natDigitsAux (n + 1) n

/-- Value of a digit list read most-significant-first from accumulator `acc`. -/
def digitsVal (acc : Nat) : List Char → Option Nat
  | [] => some acc
  | c :: cs => if isDigit c then digitsVal (acc * 10 + digVal c) cs else none

/-- Model of Rust `str::parse::<usize>()`: an optional leading `'+'`, then one
or more ASCII digits, with the resulting value at most `usize::MAX` (Rust's
step-wise checked accumulation fails exactly when the final value overflows,
since the accumulator is monotone). -/
def parseUsize (cs : List Char) : Option Nat :=
  let cs := if cs.head? = some '+' then cs.tail else cs
  if cs = [] then none
  else
    match digitsVal 0 cs with
    | some v => if v ≤ USIZE_MAX then some v else none
    | none => none

/-- If `cs = pfx ++ rest`, return `some rest`; model of `str::strip_prefix`. -/
def pfxRest : List Char → List Char → Option (List Char)
  | [], cs => some cs
  | _ :: _, [] => none
  | p :: ps, c :: cs => if p = c then pfxRest ps cs else none

/-- ASCII whitespace, for the model of `str::trim`. -/
def isWs (c : Char) : Bool := c = ' ' || c = '\t' || c = '\r' || c = '\n'

/-- Model of `str::trim` (ASCII whitespace on both ends). -/
def trimChars (cs : List Char) : List Char :=
  ((cs.dropWhile isWs).reverse.dropWhile isWs).reverse

/-- Model of `str::replace(pat, rep)`: scan left to right, replacing each
non-overlapping occurrence of `pat`; positions advance past a replaced
occurrence, else by one character.  `fuel ≥ length` suffices. -/
def strReplaceAux (pat rep : List Char) : Nat → List Char → List Char
  | _, [] => []
  | 0, cs => cs
  | fuel + 1, c :: cs =>
    match pfxRest pat (c :: cs) with
    | some rest =>
      match pat with
      | [] => c :: cs  -- empty pattern does not occur in this program
      | _ :: _ => rep ++ strReplaceAux pat rep fuel rest
    | none => c :: strReplaceAux pat rep fuel cs

/-- Model of `str::replace(pat, rep)` (the callers' patterns are nonempty). -/
def strReplace (pat rep cs : List Char) : List Char :=
  strReplaceAux pat rep cs.length cs

/-- Longest prefix of digits plus the remainder: the greedy `\d+` run
(possibly empty). -/
def digitSpan (cs : List Char) : List Char × List Char :=
  (cs.takeWhile isDigit, cs.dropWhile isDigit)

/-- Longest prefix of word characters plus the remainder: the greedy `\w+`
run (possibly empty). -/
def wordSpan (cs : List Char) : List Char × List Char :=
  (cs.takeWhile isWordChar, cs.dropWhile isWordChar)

/-!
## Errors (`src/error.rs` and panics)

`ParseError` carries a message and a 0-based line number.  The other Rust
failure modes that can escape the assembler are kept apart:
`intErr` models a propagated `std::num::ParseIntError` (no line number),
`panicked` models a Rust panic (arithmetic overflow/underflow, out-of-bounds
indexing, `unwrap` on an overflowing parse), and `resource` models a
`fancy_regex` backtrack-limit error / non-terminating recursive expansion
(in Rust, a stack overflow abort).
-/

inductive PErr where
  | perr (message : String) (lineNumber : Nat)
  | intErr
  | panicked
  | resource
deriving DecidableEq, Repr

/-!
## Variables, labels, instructions (`src/program.rs` 14-142)
-/

inductive Variable where
  | X (n : Nat)
  | Y
  | Z (n : Nat)
deriving DecidableEq, Repr

/-- `Variable::parse`: classify by the first character; for `x`/`z` the rest
of the token goes through `str::parse::<usize>()` (whose failure is a
`ParseIntError`, boxed by `?`, not a `ParseError`). -/
def Variable.parse (var : List Char) (lineNum : Nat) : Except PErr Variable :=
  match var with
  | 'x' :: rest =>
    match parseUsize rest with
    | some n => .ok (Variable.X n)
    | none => .error .intErr
  | 'y' :: _ => .ok Variable.Y
  | 'z' :: rest =>
    match parseUsize rest with
    | some n => .ok (Variable.Z n)
    | none => .error .intErr
  | _ => .error (.perr "Invalid variable name" lineNum)

/-- Display of a variable (`impl Display for Variable`). -/
def Variable.render : Variable → List Char
  | .X n => 'x' :: natChars n
  | .Z n => 'z' :: natChars n
  | .Y => ['y']

/-- A label is a single `usize` key `number * 5 + group` (`struct Label`).
We carry the raw key. -/
abbrev LabelCode := Nat

/-- `Label::new(group, number)`, `Label(number * 5 + group)`: the arithmetic
is `usize`, so the model fails (panic) when the key would overflow. -/
def labelNew (group number : Nat) : Except PErr LabelCode :=
  if number * 5 + group ≤ USIZE_MAX then .ok (number * 5 + group) else .error .panicked

/-- `Label::parse`: a leading character in `A..=E` followed by a
`str::parse::<usize>()`-accepted number. -/
def Label.parse (label : List Char) (lineNum : Nat) : Except PErr LabelCode :=
  match label with
  | c :: rest =>
    if 'A' ≤ c ∧ c ≤ 'E' then
      match parseUsize rest with
      | some number => labelNew (c.toNat - 'A'.toNat) number
      | none => .error .intErr
    else .error (.perr "Invalid label name" lineNum)
  | [] => .error (.perr "Invalid label name" lineNum)

/-- Display of a label (`impl Display for Label`): group letter then number. -/
def labelRender (code : LabelCode) : List Char :=
  Char.ofNat ('A'.toNat + code % 5) :: natChars (code / 5)

inductive Instr where
  | increment (var : Variable)
  | decrement (var : Variable)
  | jumpNonZero (var : Variable) (target : LabelCode)
  | nop
  | print (var : Variable)
  | state
deriving DecidableEq, Repr

instance exceptDecEq {ε α : Type} [DecidableEq ε] [DecidableEq α] :
    DecidableEq (Except ε α) := fun a b =>
  match a, b with
  | .error e, .error f =>
    if h : e = f then .isTrue (congrArg Except.error h)
    else .isFalse (fun hh => h (Except.error.inj hh))
  | .error _, .ok _ => .isFalse (fun hh => Except.noConfusion hh)
  | .ok _, .error _ => .isFalse (fun hh => Except.noConfusion hh)
  | .ok x, .ok y =>
    if h : x = y then .isTrue (congrArg Except.ok h)
    else .isFalse (fun hh => h (Except.ok.inj hh))

/-- The variable-token alternative `(y|[xz]\d+)` of the instruction regexes:
`y` first, else `x`/`z` followed by a greedy nonempty digit run.  Because `y`
is not in `[xz]` and every context following the captured token starts with a
non-word character (or is the end anchor), the regex's backtracking collapses
to this deterministic reading. -/
def readVarTokenCore (c : Char) (rest : List Char) : Option (List Char × List Char) :=
  if c = 'y' then some (['y'], rest)
  else if c = 'x' ∨ c = 'z' then
    match digitSpan rest with
    | ([], _) => none
    | (ds, rest') => some (c :: ds, rest')
  else none

def readVarToken (cs : List Char) : Option (List Char × List Char) :=
  match cs with
  | c :: rest => readVarTokenCore c rest
  | [] => none

/-- `^(y|[xz]\d+) <- \1 \+ 1$` (the backreference `\1` requires the same
captured text again). -/
def matchInc (cs : List Char) : Option (List Char) := do
  let (v, rest) ← readVarToken cs
  let rest ← pfxRest " <- ".toList rest
  let rest ← pfxRest v rest
  let rest ← pfxRest " + 1".toList rest
  match rest with
  | [] => some v
  | _ => none

/-- `^(y|[xz]\d+) <- (\1) - 1$`. -/
def matchDec (cs : List Char) : Option (List Char) := do
  let (v, rest) ← readVarToken cs
  let rest ← pfxRest " <- ".toList rest
  let rest ← pfxRest v rest
  let rest ← pfxRest " - 1".toList rest
  match rest with
  | [] => some v
  | _ => none

/-- `^if (y|[xz]\d+) != 0 goto (\w+)$`; the second capture is the entire
remaining text, which must be a nonempty word-character run. -/
def matchJnz (cs : List Char) : Option (List Char × List Char) := do
  let rest ← pfxRest "if ".toList cs
  let (v, rest) ← readVarToken rest
  let rest ← pfxRest " != 0 goto ".toList rest
  match rest with
  | [] => none
  | _ => if rest.all isWordChar then some (v, rest) else none

/-- `^print (y|[xz]\d+)$`. -/
def matchPrint (cs : List Char) : Option (List Char) := do
  let rest ← pfxRest "print ".toList cs
  let (v, rest) ← readVarToken rest
  match rest with
  | [] => some v
  | _ => none

/-- `Instruction::parse`: try the six anchored regexes in source order; a
match whose captured tokens fail `Variable::parse`/`Label::parse` aborts with
that error (the `?` operator), it does not fall through to later regexes.
`none` means no regex matched. -/
def Instr.parse (instruction : List Char) (lineNum : Nat) : Except PErr (Option Instr) := do
  match matchInc instruction with
  | some v => do
    let var ← Variable.parse v lineNum
    return some (Instr.increment var)
  | none =>
  match matchDec instruction with
  | some v => do
    let var ← Variable.parse v lineNum
    return some (Instr.decrement var)
  | none =>
  match matchJnz instruction with
  | some (v, l) => do
    let var ← Variable.parse v lineNum
    let target ← Label.parse l lineNum
    return some (Instr.jumpNonZero var target)
  | none =>
  if instruction = "nop".toList then
    return some Instr.nop
  else
  match matchPrint instruction with
  | some v => do
    let var ← Variable.parse v lineNum
    return some (Instr.print var)
  | none =>
  if instruction = "state".toList then
    return some Instr.state
  else
    return none

/-!
## Execution machine (`src/machine.rs`)

`State` is the register file plus the program counter.  `get_var`/`set_var`
index Rust `Vec`s with `n - 1` on a `usize`, which panics for `n = 0`
(underflow in a debug build; a wrapped out-of-bounds index in release), so
both are partial here: `none` models the panic.  The `match` in
`Machine::step` covers only `Increment`, `Decrement`, `JumpNonZero` and
`Nop`; the `Instruction` enum also has `Print` and `State`, for which the
match provides no arm, so `step` has no defined transition there (`none`).
-/

structure MState where
  x : List Nat
  z : List Nat
  y : Nat
  pc : Nat
deriving DecidableEq, Repr

/-- `State::from_vars`. -/
def MState.fromVars (vars : List Nat) : MState :=
  { x := vars, z := [], y := 0, pc := 0 }

/-- One register bank read: `if *n <= v.len() { v[*n - 1] } else { 0 }`. -/
def getReg (v : List Nat) (n : Nat) : Option Nat :=
  if n ≤ v.length then
    if n = 0 then none else some (v.getD (n - 1) 0)
  else some 0

/-- One register bank write: `while *n > v.len() { v.push(0); } v[*n - 1] = value;`. -/
def setReg (v : List Nat) (n : Nat) (value : Nat) : Option (List Nat) :=
  let grown := v ++ List.replicate (n - v.length) 0
  if n = 0 then none else some (grown.set (n - 1) value)

/-- `State::get_var`. -/
def MState.getVar (s : MState) (var : Variable) : Option Nat :=
  match var with
  | .X n => getReg s.x n
  | .Z n => getReg s.z n
  | .Y => some s.y

/-- `State::set_var`. -/
def MState.setVar (s : MState) (var : Variable) (value : Nat) : Option MState :=
  match var with
  | .X n => (setReg s.x n value).map (fun x' => { s with x := x' })
  | .Z n => (setReg s.z n value).map (fun z' => { s with z := z' })
  | .Y => some { s with y := value }

/-- The `Program` data the machine consumes: the instruction array and the
label table (`HashMap<Label, usize>`, modelled as an association list whose
keys are unique because a label is never inserted twice). -/
structure MProgram where
  instructions : List Instr
  labels : List (LabelCode × Nat)
deriving DecidableEq, Repr

/-- `HashMap::get` on the label table. -/
def lookupLabel (labels : List (LabelCode × Nat)) (code : LabelCode) : Option Nat :=
  match labels.find? (fun p => p.1 = code) with
  | some p => some p.2
  | none => none

/-- `Machine::step`.  When `pc` is past the end, the body does nothing.
`none` models a panic (register index underflow) or a missing match arm
(`Print`, `State`). -/
def step (program : MProgram) (s : MState) : Option MState :=
  match program.instructions.get? s.pc with
  | none => some s
  | some instruction =>
    match instruction with
    | .increment var => do
      let v ← s.getVar var
      -- `get_var(var) + 1` is a `usize` addition: overflow panics
      let s' ← if v < USIZE_MAX then s.setVar var (v + 1) else none
      pure { s' with pc := s'.pc + 1 }
    | .decrement var => do
      let v ← s.getVar var
      let s' ← if v > 0 then s.setVar var (v - 1) else pure s
      pure { s' with pc := s'.pc + 1 }
    | .jumpNonZero var target => do
      let v ← s.getVar var
      if v > 0 then
        pure { s with pc := (lookupLabel program.labels target).getD program.instructions.length }
      else
        pure { s with pc := s.pc + 1 }
    | .nop => some { s with pc := s.pc + 1 }
    | .print _ => none
    | .state => none

/-- `Machine::run`: iterate `step` while `pc` is in range; fuelled because a
slang program may loop forever.  `none` is a stepping failure, `some none`
is fuel exhaustion (the run has not terminated within `fuel` steps). -/
def runMachine : Nat → MProgram → MState → Option (Option MState)
  | 0, _, _ => some none
  | fuel + 1, program, s =>
    if s.pc < program.instructions.length then
      match step program s with
      | some s' => runMachine fuel program s'
      | none => none
    else some (some s)

/-!
## Macro template engine (`src/program.rs` 148-170)

`Macro::parse` escapes the regex-special characters of the header, replaces
every `{name}` placeholder with a capturing `(\w+)`, anchors the result, and
records for each placeholder name the index of a capture (`HashMap::insert`
per occurrence, so a repeated name keeps its *last* occurrence's index).  We
embed the compiled pattern as its list of literal/capture segments, storing
literal text unescaped (one `\c` escape denotes the literal character `c`).
Headers whose leftover literal braces would make `Regex::new` reject the
pattern (an invalid counted repetition, hence a panic through `unwrap`) are
treated as literal braces here; such a header kills the Rust assembly run
before any program exists.
-/

/-- The characters escaped by `Macro::parse`'s `escape_regex`,
`[+*.$^()|?\\\[\]]`. -/
def isEscaped (c : Char) : Bool :=
  c = '+' || c = '*' || c = '.' || c = '$' || c = '^' || c = '(' ||
  c = ')' || c = '|' || c = '?' || c = '\\' || c = '[' || c = ']'

/-- `escape_regex.replace_all(def, |c| format!("\\{}", c))`. -/
def escapeChars : List Char → List Char
  | [] => []
  | c :: rest => if isEscaped c then '\\' :: c :: escapeChars rest else c :: escapeChars rest

/-- Strip the `\c` escapes back off a literal pattern chunk: in the compiled
regex, `\c` for the escaped characters above matches the literal `c`. -/
def unesc : List Char → List Char
  | [] => []
  | '\\' :: c :: rest => c :: unesc rest
  | c :: rest => c :: unesc rest

/-- One segment of a compiled macro pattern: literal text or a `(\w+)`
capture. -/
inductive Seg where
  | lit (text : List Char)
  | cap
deriving DecidableEq, Repr

/-- Scan the (escaped) header for `\{(\w+)}` occurrences, exactly as
`replace_all` does: leftmost nonoverlapping matches, a failed attempt at a
`{` resuming one character later.  Returns the segment list (literal chunks
still escaped) and the placeholder names in match order. -/
def scanSegsAux : List Char → List Char → Option (List Char) → List Seg × List String
  | [], lit, none => ([Seg.lit lit], [])
  | [], lit, some acc => ([Seg.lit (lit ++ '{' :: acc)], [])
  | c :: rest, lit, none =>
    if c = '{' then scanSegsAux rest lit (some [])
    else scanSegsAux rest (lit ++ [c]) none
  | c :: rest, lit, some acc =>
    if c = '}' ∧ acc ≠ [] then
      let (segs, names) := scanSegsAux rest [] none
      (Seg.lit lit :: Seg.cap :: segs, String.mk acc :: names)
    else if isWordChar c then scanSegsAux rest lit (some (acc ++ [c]))
    else
      -- the attempt at this `{` failed; its buffer is literal text and the
      -- offending character is reconsidered afresh
      let flushed := lit ++ '{' :: acc
      if c = '{' then scanSegsAux rest flushed (some [])
      else scanSegsAux rest (flushed ++ [c]) none

/-- Per-occurrence `HashMap::insert(name, n)`: a duplicate name keeps the
later index.  (The Rust map's iteration order is unspecified; the model
lists entries in first-insertion order.) -/
def insertRepl (acc : List (String × Nat)) (name : String) (idx : Nat) : List (String × Nat) :=
  if acc.any (fun p => p.1 = name) then
    acc.map (fun p => if p.1 = name then (name, idx) else p)
  else acc ++ [(name, idx)]

/-- The compiled macro: pattern segments, placeholder-to-capture map, and the
raw unexpanded body lines. -/
structure MacroDef where
  pattern : List Seg
  replacements : List (String × Nat)
  instructions : List (List Char)
deriving DecidableEq, Repr

/-- `Macro::parse`. -/
def macroParse (defn : List Char) : MacroDef :=
  let escaped := escapeChars defn
  let (segs, names) := scanSegsAux escaped [] none
  let segs := segs.map (fun s => match s with | .lit l => Seg.lit (unesc l) | .cap => Seg.cap)
  let replacements := (names.enum).foldl (fun acc p => insertRepl acc p.2 p.1) []
  { pattern := segs, replacements := replacements, instructions := [] }

/-- The backtrack budget with which pattern matching is attempted, the
analogue of `fancy_regex`'s backtrack limit (`captures` returns `Result`:
running out is an error, not a failed match). -/
def BT_LIMIT : Nat := 1000000

/-- The backtracking loop of a `(\w+)` capture: try capture lengths from `k`
down to 1, calling the continuation `recur` on the input left after the
capture. -/
def tryLens (recur : List Char → Option (Option (List (List Char))))
    (input : List Char) : Nat → Option (Option (List (List Char)))
  | 0 => some none
  | k + 1 =>
    match recur (input.drop (k + 1)) with
    | none => none
    | some (some caps) => some (some (input.take (k + 1) :: caps))
    | some none => tryLens recur input k

/-- Anchored matching of a segment pattern against a whole line, with the
greedy, backtracking semantics of the compiled `^...$` regex: a capture
tries the longest word-character run first and gives back characters until
the remaining segments match.  Outer `none` is backtrack-budget exhaustion;
`some none` is a failed match; `some (some caps)` lists the captures in
order. -/
def matchSegs : Nat → List Seg → List Char → Option (Option (List (List Char)))
  | 0, _, _ => none
  | _ + 1, [], [] => some (some [])
  | _ + 1, [], _ :: _ => some none
  | fuel + 1, .lit l :: segs, input =>
    match pfxRest l input with
    | some rest => matchSegs fuel segs rest
    | none => some none
  | fuel + 1, .cap :: segs, input =>
    tryLens (fun rest => matchSegs fuel segs rest) input
      (input.takeWhile isWordChar).length

/-- `m.pattern.captures(line)?`. -/
def patternCaptures (m : MacroDef) (input : List Char) :
    Except PErr (Option (List (List Char))) :=
  match matchSegs BT_LIMIT m.pattern input with
  | none => .error .resource
  | some r => .ok r

/-!
## Program assembler (`src/program.rs` 176-404)

The assembler state mirrors `struct Program` plus one *ghost* field:
`trace` is an append-only log of the freshness-counter allocations (each
time an `or_insert_with` closure in `expand_macro` actually runs), recording
which generated label `(group, number)` or temp-variable number was handed
out.  It is written exactly where the source increments a counter and never
read by the model, and exists only so the hygiene property can be stated.
-/

/-- A generated-name allocation event (ghost). -/
inductive Ev where
  | lab (group number : Nat)
  | tmp (number : Nat)
deriving DecidableEq, Repr

structure AsmSt where
  instructions : List Instr
  labels : List (LabelCode × Nat)
  macros : List MacroDef
  maxTempVar : Nat
  maxLabels : List Nat
  trace : List Ev
deriving DecidableEq, Repr

/-!
### Pre-scan (`Program::from_file`, the counting pre-pass)

`captures_iter` of `([A-E])(\d+)` and `\bz(\d+)\b` over every raw line,
embedded as left-to-right scanners with the regexes' semantics: a match is a
group letter followed by its maximal digit run (no boundary required), resp.
a `z` preceded by a non-word position followed by a maximal digit run that
ends at a non-word position.
-/

/-- Start state of a `([A-E])(\d+)` match attempt at character `c`. -/
def labFresh (c : Char) : Option (Nat × Option Nat) :=
  if 'A' ≤ c ∧ c ≤ 'E' then some (c.toNat - 'A'.toNat, none) else none

/-- All `([A-E])(\d+)` captures of a line, in order, as (group, number). -/
def labOccsAux : List Char → Option (Nat × Option Nat) → List (Nat × Nat)
  | [], some (g, some v) => [(g, v)]
  | [], _ => []
  | c :: rest, some (g, some v) =>
    if isDigit c then labOccsAux rest (some (g, some (v * 10 + digVal c)))
    else (g, v) :: labOccsAux rest (labFresh c)
  | c :: rest, some (g, none) =>
    if isDigit c then labOccsAux rest (some (g, some (digVal c)))
    else labOccsAux rest (labFresh c)
  | c :: rest, none => labOccsAux rest (labFresh c)

def lineLabelOccs (cs : List Char) : List (Nat × Nat) := labOccsAux cs none

/-- Scanner state for `\bz(\d+)\b`: between matches (tracking whether the
previous character was a word character, i.e. whether a boundary is
present), just after a `z`, or inside the digit run. -/
inductive TScan where
  | idle (prevWord : Bool)
  | zSeen
  | digits (v : Nat)
deriving DecidableEq, Repr

/-- All `\bz(\d+)\b` captures of a line, in order. -/
def tempOccsAux : List Char → TScan → List Nat
  | [], .digits v => [v]
  | [], _ => []
  | c :: rest, .digits v =>
    if isDigit c then tempOccsAux rest (.digits (v * 10 + digVal c))
    else if isWordChar c then tempOccsAux rest (.idle true)
    else v :: tempOccsAux rest (.idle false)
  | c :: rest, .zSeen =>
    if isDigit c then tempOccsAux rest (.digits (digVal c))
    else tempOccsAux rest (.idle (isWordChar c))
  | c :: rest, .idle prevWord =>
    if c = 'z' ∧ ¬prevWord then tempOccsAux rest .zSeen
    else tempOccsAux rest (.idle (isWordChar c))

def lineTempOccs (cs : List Char) : List Nat := tempOccsAux cs (.idle false)

/-- `if number > labels[group] { labels[group] = number }`. -/
def bumpLabel (ml : List Nat) (g n : Nat) : List Nat :=
  if ml.getD g 0 < n then ml.set g n else ml

/-- One line of the pre-pass; the `.unwrap()` on each captured number's
`parse::<usize>()` panics when the number overflows `usize`. -/
def prescanLine (line : List Char) (mt : Nat) (ml : List Nat) :
    Except PErr (Nat × List Nat) :=
  if (lineTempOccs line).any (fun v => USIZE_MAX < v) then .error .panicked
  else if (lineLabelOccs line).any (fun p => USIZE_MAX < p.2) then .error .panicked
  else .ok ((lineTempOccs line).foldl Nat.max mt,
    (lineLabelOccs line).foldl (fun acc p => bumpLabel acc p.1 p.2) ml)

/-- The whole counting pre-pass over the raw prologue-plus-user lines. -/
def prescan : List (List Char) → Nat → List Nat → Except PErr (Nat × List Nat)
  | [], mt, ml => .ok (mt, ml)
  | l :: rest, mt, ml =>
    match prescanLine l mt ml with
    | .ok (mt, ml) => prescan rest mt ml
    | .error e => .error e

/-!
### Labels in lines, allocation, substitution
-/

/-- `Program::find_label`: strip a leading `[(\w+)]`, registering the label
at the coming instruction index; redefinition is fatal.  Returns the rest of
the line and the updated label table. -/
def findLabel (instruction : List Char) (instructionNumber : Nat)
    (labels : List (LabelCode × Nat)) (lineNum : Nat) :
    Except PErr (List Char × List (LabelCode × Nat)) :=
  match instruction with
  | '[' :: rest =>
    match wordSpan rest with
    | ([], _) => .ok (instruction, labels)
    | (w, rest') =>
      match rest' with
      | ']' :: after =>
        match Label.parse w lineNum with
        | .error e => .error e
        | .ok label =>
          if (lookupLabel labels label).isSome then
            .error (.perr (String.mk ("Redefined label ".toList ++ labelRender label)) lineNum)
          else .ok (after, (label, instructionNumber) :: labels)
      | _ => .ok (instruction, labels)
  | _ => .ok (instruction, labels)

/-- The `or_insert_with` closure of the auto-label `replace_all`: parse the
captured number (`unwrap` panics past `usize::MAX`), memoize per key within
the expansion, allocating `max_labels[group] + 1` on a miss; emits the
label's display text. -/
def autoLabClosure (g v : Nat) (memo : List (Nat × Nat)) (st : AsmSt) :
    Except PErr (List Char × List (Nat × Nat) × AsmSt) :=
  -- the two `Label::new` overflow checks (`number * 5 + group` on `usize`)
  -- are inlined: one for the memo key, one for the freshly allocated label
  if USIZE_MAX < v then .error .panicked
  else if v * 5 + g ≤ USIZE_MAX then
    match memo.find? (fun p => p.1 = v * 5 + g) with
    | some p => .ok (labelRender p.2, memo, st)
    | none =>
      if st.maxLabels.getD g 0 = USIZE_MAX then .error .panicked
      else if (st.maxLabels.getD g 0 + 1) * 5 + g ≤ USIZE_MAX then
        .ok (labelRender ((st.maxLabels.getD g 0 + 1) * 5 + g),
             (v * 5 + g, (st.maxLabels.getD g 0 + 1) * 5 + g) :: memo,
             { st with maxLabels := st.maxLabels.set g (st.maxLabels.getD g 0 + 1),
                       trace := st.trace ++ [Ev.lab g (st.maxLabels.getD g 0 + 1)] })
      else .error .panicked
  else .error .panicked

/-- Scanner state for the `%([A-E])(\d+)` `replace_all`. -/
inductive LScan where
  | idle
  | pct
  | pctG (g : Nat) (raw : Char)
  | pctGN (g : Nat) (v : Nat)
deriving DecidableEq, Repr

/-- One character of the auto-label `replace_all` scan: emitted text, next
scanner state, memo and assembler state.  A match completes (running the
allocating closure) when the digit run of a pending `%Gd...d` ends; a failed
attempt flushes its buffer and reconsiders the current character afresh
(matching the regex engine's restart-at-the-next-position behaviour — the
buffer past its leading `%` cannot contain another `%`). -/
def labStep : Char → LScan → List (Nat × Nat) → AsmSt →
    Except PErr (List Char × LScan × List (Nat × Nat) × AsmSt)
  | c, .idle, memo, st =>
    if c = '%' then .ok ([], .pct, memo, st)
    else .ok ([c], .idle, memo, st)
  | c, .pct, memo, st =>
    match labFresh c with
    | some (g, _) => .ok ([], .pctG g c, memo, st)
    | none =>
      if c = '%' then .ok (['%'], .pct, memo, st)
      else .ok (['%', c], .idle, memo, st)
  | c, .pctG g raw, memo, st =>
    if isDigit c then .ok ([], .pctGN g (digVal c), memo, st)
    else if c = '%' then .ok (['%', raw], .pct, memo, st)
    else .ok (['%', raw, c], .idle, memo, st)
  | c, .pctGN g v, memo, st =>
    if isDigit c then .ok ([], .pctGN g (v * 10 + digVal c), memo, st)
    else
      match autoLabClosure g v memo st with
      | .error e => .error e
      | .ok (lab, memo, st) =>
        if c = '%' then .ok (lab, .pct, memo, st)
        else .ok (lab ++ [c], .idle, memo, st)

/-- End-of-line flush of the auto-label scan: a pending complete `%Gd...d`
match still runs the closure. -/
def labFlush : LScan → List (Nat × Nat) → AsmSt →
    Except PErr (List Char × List (Nat × Nat) × AsmSt)
  | .idle, memo, st => .ok ([], memo, st)
  | .pct, memo, st => .ok (['%'], memo, st)
  | .pctG _ raw, memo, st => .ok (['%', raw], memo, st)
  | .pctGN g v, memo, st => autoLabClosure g v memo st

/-- `auto_label_regex.replace_all` with the allocating closure, threading the
per-expansion memo and the assembler state left to right. -/
def autoLabAux : List Char → LScan → List (Nat × Nat) → AsmSt →
    Except PErr (List Char × List (Nat × Nat) × AsmSt)
  | [], ls, memo, st => labFlush ls memo st
  | c :: rest, ls, memo, st =>
    match labStep c ls memo st with
    | .error e => .error e
    | .ok (out1, ls', memo, st) =>
      match autoLabAux rest ls' memo st with
      | .error e => .error e
      | .ok (out, memo, st) => .ok (out1 ++ out, memo, st)

/-- The `or_insert_with` closure of the auto-variable `replace_all`: memoize
the placeholder name, allocating `max_temp_var + 1` on a miss; emits
`z<number>`. -/
def autoVarClosure (name : String) (memo : List (String × Nat)) (st : AsmSt) :
    Except PErr (List Char × List (String × Nat) × AsmSt) :=
  match memo.find? (fun p => p.1 = name) with
  | some p => .ok ('z' :: natChars p.2, memo, st)
  | none =>
    if st.maxTempVar = USIZE_MAX then .error .panicked
    else
      .ok ('z' :: natChars (st.maxTempVar + 1), (name, st.maxTempVar + 1) :: memo,
           { st with maxTempVar := st.maxTempVar + 1,
                     trace := st.trace ++ [Ev.tmp (st.maxTempVar + 1)] })

/-- Scanner state for the `\$(\w+)` `replace_all`. -/
inductive VScan where
  | idle
  | dollar
  | word (acc : List Char)
deriving DecidableEq, Repr

/-- One character of the auto-variable `replace_all` scan, in the same style
as `labStep`:  a pending `$name` match completes (running the allocating
closure) when its word run ends. -/
def varStep : Char → VScan → List (String × Nat) → AsmSt →
    Except PErr (List Char × VScan × List (String × Nat) × AsmSt)
  | c, .idle, memo, st =>
    if c = '$' then .ok ([], .dollar, memo, st)
    else .ok ([c], .idle, memo, st)
  | c, .dollar, memo, st =>
    if isWordChar c then .ok ([], .word [c], memo, st)
    else if c = '$' then .ok (['$'], .dollar, memo, st)
    else .ok (['$', c], .idle, memo, st)
  | c, .word acc, memo, st =>
    if isWordChar c then .ok ([], .word (acc ++ [c]), memo, st)
    else
      match autoVarClosure (String.mk acc) memo st with
      | .error e => .error e
      | .ok (zv, memo, st) =>
        if c = '$' then .ok (zv, .dollar, memo, st)
        else .ok (zv ++ [c], .idle, memo, st)

/-- End-of-line flush of the auto-variable scan. -/
def varFlush : VScan → List (String × Nat) → AsmSt →
    Except PErr (List Char × List (String × Nat) × AsmSt)
  | .idle, memo, st => .ok ([], memo, st)
  | .dollar, memo, st => .ok (['$'], memo, st)
  | .word acc, memo, st => autoVarClosure (String.mk acc) memo st

/-- `auto_var_regex.replace_all` with the allocating closure. -/
def autoVarAux : List Char → VScan → List (String × Nat) → AsmSt →
    Except PErr (List Char × List (String × Nat) × AsmSt)
  | [], vs, memo, st => varFlush vs memo st
  | c :: rest, vs, memo, st =>
    match varStep c vs memo st with
    | .error e => .error e
    | .ok (out1, vs', memo, st) =>
      match autoVarAux rest vs' memo st with
      | .error e => .error e
      | .ok (out, memo, st) => .ok (out1 ++ out, memo, st)

/-- The macro-replacement loop of `expand_macro`: for each recorded
placeholder, `str::replace` its bare name by the captured text
(`&caps[cap + 1]`; an out-of-range capture index would panic). -/
def applyReplacements (repls : List (String × Nat)) (caps : List (List Char))
    (instruction : List Char) : Except PErr (List Char) :=
  match repls with
  | [] => .ok instruction
  | (name, idx) :: rest =>
    match caps.get? idx with
    | some cap => applyReplacements rest caps (strReplace name.toList cap instruction)
    | none => .error .panicked

/-- First macro in definition order whose pattern matches, with its
captures. -/
def firstMatch (macros : List MacroDef) (instruction : List Char) :
    Except PErr (Option (MacroDef × List (List Char))) :=
  match macros with
  | [] => .ok none
  | m :: rest =>
    match patternCaptures m instruction with
    | .error e => .error e
    | .ok (some caps) => .ok (some (m, caps))
    | .ok none => firstMatch rest instruction

/-!
### Recursive expansion

`expand_macro` is recursive through the nested-macro dispatch; the recursion
is fuelled (`.resource` on exhaustion models the non-terminating Rust
recursion, which aborts by stack overflow).  The per-line body is factored
so that the nested expansion enters through the explicit continuation
`recur`.
-/

/-- One template line of `expand_macro`: auto-labels, leading label,
trim, placeholder replacement, auto-variables, then parse as a primitive,
else dispatch to the first matching macro through `recur`, else drop the
line silently. -/
def processLine (recur : MacroDef → List (List Char) → AsmSt → Except PErr AsmSt)
    (macros : List MacroDef) (m : MacroDef) (caps : List (List Char)) (lineNum : Nat)
    (tmpl : List Char) (memoL : List (Nat × Nat)) (memoV : List (String × Nat))
    (st : AsmSt) :
    Except PErr (List (Nat × Nat) × List (String × Nat) × AsmSt) :=
  match autoLabAux tmpl .idle memoL st with
  | .error e => .error e
  | .ok (s1, memoL', st1) =>
    match findLabel s1 st1.instructions.length st1.labels lineNum with
    | .error e => .error e
    | .ok (s2, labels') =>
      match applyReplacements m.replacements caps (trimChars s2) with
      | .error e => .error e
      | .ok s3 =>
        match autoVarAux s3 .idle memoV { st1 with labels := labels' } with
        | .error e => .error e
        | .ok (s4, memoV', st2) =>
          match Instr.parse s4 lineNum with
          | .error e => .error e
          | .ok (some i) =>
            .ok (memoL', memoV', { st2 with instructions := st2.instructions ++ [i] })
          | .ok none =>
            match firstMatch macros s4 with
            | .error e => .error e
            | .ok (some (m', caps')) =>
              match recur m' caps' st2 with
              | .error e => .error e
              | .ok st3 => .ok (memoL', memoV', st3)
            | .ok none => .ok (memoL', memoV', st2)

/-- The template-line loop of `expand_macro`, threading the per-expansion
memo tables. -/
def expandBody (recur : MacroDef → List (List Char) → AsmSt → Except PErr AsmSt)
    (macros : List MacroDef) (m : MacroDef) (caps : List (List Char)) (lineNum : Nat) :
    List (List Char) → List (Nat × Nat) → List (String × Nat) → AsmSt →
    Except PErr AsmSt
  | [], _, _, st => .ok st
  | t :: rest, memoL, memoV, st =>
    match processLine recur macros m caps lineNum t memoL memoV st with
    | .error e => .error e
    | .ok (memoL, memoV, st) => expandBody recur macros m caps lineNum rest memoL memoV st

/-- `Program::expand_macro`. -/
def expandMacro : Nat → List MacroDef → MacroDef → List (List Char) → Nat → AsmSt →
    Except PErr AsmSt
  | 0, _, _, _, _, _ => .error .resource
  | fuel + 1, macros, m, caps, lineNum, st =>
    expandBody (fun m' caps' st' => expandMacro fuel macros m' caps' lineNum st')
      macros m caps lineNum m.instructions [] [] st

/-- `Program::parse_line`: leading label, then a primitive, then the first
matching macro, else the fatal not-a-valid-instruction error. -/
def parseLine (fuel : Nat) (st : AsmSt) (line : List Char) (lineNum : Nat) :
    Except PErr AsmSt :=
  match findLabel line st.instructions.length st.labels lineNum with
  | .error e => .error e
  | .ok (rest, labels') =>
    match Instr.parse (trimChars rest) lineNum with
    | .error e => .error e
    | .ok (some i) =>
      .ok { st with labels := labels', instructions := st.instructions ++ [i] }
    | .ok none =>
      match firstMatch st.macros (trimChars rest) with
      | .error e => .error e
      | .ok (some (m, caps)) =>
        expandMacro fuel st.macros m caps lineNum { st with labels := labels' }
      | .ok none =>
        .error (.perr (String.mk ("Expression ".toList ++ trimChars rest ++
          " is not a valid instruction".toList)) lineNum)

/-- The main line loop of `Program::from_file`: skip blank and `#` lines,
handle `@` directives and the one open macro definition, else `parse_line`.
A macro definition left open at end of input is discarded without error, as
in the source. -/
def asmLoop (fuel : Nat) :
    List (Nat × List Char) → AsmSt → Option MacroDef → Except PErr AsmSt
  | [], st, _ => .ok st
  | (lineNum, line) :: rest, st, current =>
    if line = [] ∨ line.head? = some '#' then asmLoop fuel rest st current
    else if line.head? = some '@' then
      match pfxRest "@def".toList line with
      | some defn =>
        match current with
        | some _ => .error (.perr "Unexpected nested @def directive" lineNum)
        | none => asmLoop fuel rest st (some (macroParse (trimChars defn)))
      | none =>
        if (pfxRest "@end".toList line).isSome then
          match current with
          | some m => asmLoop fuel rest { st with macros := st.macros ++ [m] } none
          | none => .error (.perr "Unexpected @end directive" lineNum)
        else .error (.perr "Unknown directive" lineNum)
    else
      match current with
      | some m =>
        asmLoop fuel rest st (some { m with instructions := m.instructions ++ [line] })
      | none =>
        match parseLine fuel st line lineNum with
        | .error e => .error e
        | .ok st => asmLoop fuel rest st none

/-- The built-in prologue (`src/prologue.rs`), exactly as `PROLOGUE.lines()`
yields it: the raw string starts with a newline, so the first line is empty,
followed by the 107 source lines. -/
def prologueLines : List String := [
  "",
  "@def goto {label}",
  "    $a <- $a + 1",
  "    if $a != 0 goto label",
  "@end",
  "",
  "@def if {v} = 0 goto {label}",
  "        if v != 0 goto %E1",
  "        goto label",
  "[%E1]   nop",
  "@end",
  "",
  "@def if {v1} < {v2} goto {label}",
  "        $a <- v2 - v1",
  "        if $a != 0 goto label",
  "@end",
  "",
  "@def {v} <- 0",
  "[%A1]   v <- v - 1",
  "        if v != 0 goto %A1",
  "@end",
  "",
  "@def {v1} <- {v2}",
  "        v1 <- 0",
  "[%A1]   if v2 != 0 goto %B1",
  "        goto %C1",
  "[%B1]   v2 <- v2 - 1",
  "        v1 <- v1 + 1",
  "        $a <- $a + 1",
  "        goto %A1",
  "[%C1]   if $a != 0 goto %D1",
  "        goto %E1",
  "[%D1]   $a <- $a - 1",
  "        v2 <- v2 + 1",
  "        goto %C1",
  "[%E1]   nop",
  "@end",
  "",
  "@def {v} <- {a} + {b}",
  "        v <- a",
  "        $t <- b",
  "[%C1]   if $t != 0 goto %B1",
  "        goto %E1",
  "[%B1]   $t <- $t - 1",
  "        v <- v + 1",
  "        goto %C1",
  "[%E1]   nop",
  "@end",
  "",
  "@def {v} <- {a} - {b}",
  "        v <- a",
  "        $t <- b",
  "[%C1]   if $t != 0 goto %B1",
  "        goto %E1",
  "[%B1]   $t <- $t - 1",
  "        v <- v - 1",
  "        if v != 0 goto %C1",
  "[%E1]   nop",
  "@end",
  "",
  "@def {v} <- {a} * {b}",
  "        v <- 0",
  "        $t <- b",
  "[%B1]   if $t != 0 goto %A1",
  "        goto %E1",
  "[%A1]   $t <- $t - 1",
  "        $u <- a + v",
  "        v <- $u",
  "        goto %B1",
  "[%E1]   nop",
  "@end",
  "",
  "@def {v} <- {a} / {b}",
  "        v <- 0",
  "        $t <- a",
  "[%C1]   $u <- b - $t",
  "        if $u != 0 goto %E1",
  "        $w <- $t - b",
  "        $t <- $w",
  "        v <- v + 1",
  "        goto %C1",
  "[%E1]   nop",
  "@end",
  "",
  "# Alt syntax macros",
  "@def inc {v}",
  "        v <- v + 1",
  "@end",
  "",
  "@def dec {v}",
  "        v <- v - 1",
  "@end",
  "",
  "@def jnz {v} {label}",
  "        if v != 0 goto label",
  "@end",
  "",
  "@def jze {v} {label}",
  "        if v = 0 goto label",
  "@end",
  "",
  "@def jlt {v1} {v2} {label}",
  "        if v1 < v2 goto label",
  "@end",
  "",
  "@def mov {v1} {v2}",
  "        v1 <- v2",
  "@end"
]

/-- The empty `Program` literal at the top of `from_file`. -/
def emptySt : AsmSt :=
  { instructions := [], labels := [], macros := [], maxTempVar := 0,
    maxLabels := [0, 0, 0, 0, 0], trace := [] }

/-- `Program::from_file`: chain the prologue and the user source, number the
lines from 0 across the whole, run the counting pre-pass, then assemble. -/
def fromFile (fuel : Nat) (user : List String) : Except PErr AsmSt :=
  match prescan ((prologueLines ++ user).map String.toList) 0 [0, 0, 0, 0, 0] with
  | .error e => .error e
  | .ok (mt, ml) =>
    asmLoop fuel ((prologueLines ++ user).map String.toList).enum
      { emptySt with maxTempVar := mt, maxLabels := ml } none

end Slang

-- assembler sanity checks
def Slang.prologueOnlyCheck : Bool :=
  match Slang.fromFile 99 [] with
  | .ok st =>
    st.instructions == [] && st.macros.length == 15 && st.maxTempVar == 0 &&
    st.maxLabels == [1, 1, 1, 1, 1] && st.trace == [] && st.labels == []
  | .error _ => false

def Slang.copyRunCheck : Bool :=
  match Slang.fromFile 99 ["y <- x1"] with
  | .ok st =>
    match Slang.runMachine 500 ⟨st.instructions, st.labels⟩ (Slang.MState.fromVars [3]) with
    | some (some s) => s.y == 3 && s.x == [3]
    | _ => false
  | .error _ => false

namespace Slang

/-- `substWholeTokens name rep line` — modelled from the claim's contrast
notion, not from the source: replace only those maximal word-character
tokens of the line that are exactly `name`.  Used solely to compare the
source's substring replacement against whole-token substitution. -/
def substTokAux (name rep : List Char) : Nat → List Char → List Char
  | _, [] => []
  | 0, cs => cs
  | fuel + 1, c :: cs =>
    if isWordChar c then
      let (w, rest) := wordSpan (c :: cs)
      (if w = name then rep else w) ++ substTokAux name rep fuel rest
    else c :: substTokAux name rep fuel cs

def substWholeTokens (name rep cs : List Char) : List Char :=
  substTokAux name rep cs.length cs

end Slang

namespace Slang

/-- C4 counterexample: the claim says `Variable::parse` fails with a parse
error when the remainder is `"0"`; in the source the remainder only goes
through `str::parse::<usize>()`, which accepts `0`, so `"x0"` parses
successfully to `X(0)`. -/
theorem C4_zero_index_accepted : Variable.parse "x0".toList 7 = .ok (.X 0) := by decide

/-- C4 (amended): for a token starting with `x` or `z`, `Variable::parse`
succeeds exactly when the remainder is accepted by Rust's
`str::parse::<usize>()` — a nonnegative integer of value at most
`usize::MAX`, optionally with a leading `+`, including `"0"` — and fails
with the propagated integer-parse error otherwise; a token starting with
`y` always succeeds as `Y`; an empty token or one starting with any other
character fails with the `Invalid variable name` parse error. -/
theorem C4_parse_characterization :
    (∀ rest lineNum, Variable.parse ('x' :: rest) lineNum =
      (match parseUsize rest with
       | some n => .ok (.X n)
       | none => .error .intErr)) ∧
    (∀ rest lineNum, Variable.parse ('z' :: rest) lineNum =
      (match parseUsize rest with
       | some n => .ok (.Z n)
       | none => .error .intErr)) ∧
    (∀ rest lineNum, Variable.parse ('y' :: rest) lineNum = .ok .Y) ∧
    (∀ c rest lineNum, c ≠ 'x' → c ≠ 'y' → c ≠ 'z' →
      Variable.parse (c :: rest) lineNum = .error (.perr "Invalid variable name" lineNum)) ∧
    (∀ lineNum, Variable.parse [] lineNum = .error (.perr "Invalid variable name" lineNum)) := by
  refine ⟨fun rest lineNum => rfl, fun rest lineNum => rfl, fun rest lineNum => rfl,
    fun c rest lineNum hx hy hz => ?_, fun lineNum => rfl⟩
  unfold Variable.parse
  split
  · rename_i h; exact absurd (by injection h) hx
  · rename_i h; exact absurd (by injection h) hy
  · rename_i h; exact absurd (by injection h) hz
  · rfl

/-- C4 witness: the amended characterization applied at concrete tokens. -/
theorem C4_parse_characterization_witness :
    Variable.parse ('w' :: "9".toList) 3 = .error (.perr "Invalid variable name" 3) ∧
    Variable.parse ('x' :: "0".toList) 0 = .ok (.X 0) := by
  refine ⟨C4_parse_characterization.2.2.2.1 'w' "9".toList 3 (by decide) (by decide) (by decide),
    ?_⟩
  rw [C4_parse_characterization.1 "0".toList 0]
  decide

/-- C3: the spec says `Print{v}` emits the value of `v` and `State` emits a
register snapshot, each advancing `pc` by 1; but the `match` in
`Machine::step` has arms only for `Increment`, `Decrement`, `JumpNonZero`
and `Nop` — it provides no transition at all for `Print` or `State` (as
written the non-exhaustive match is not even accepted by the Rust
compiler), so executing either instruction fails instead of emitting and
advancing. -/
theorem C3_print_state_missing_arms :
    step ⟨[.print .Y], []⟩ ⟨[], [], 5, 0⟩ = none ∧
    step ⟨[.state], []⟩ ⟨[], [], 5, 0⟩ = none ∧
    step ⟨[.print (.X 1)], []⟩ ⟨[3], [], 0, 0⟩ = none := by decide

/-- C2: execution can fail.  The source file `x0 <- x0 + 1` assembles (the
`[xz]\d+` token regex and `Variable::parse` accept index 0), yet stepping
the resulting single-instruction program panics: `State::get_var` evaluates
`self.x[*n - 1]` with `n = 0`, a `usize` underflow.  (Independently, any
assembled `print`/`state` instruction fails by C3's missing match arms.) -/
theorem C2_step_can_panic :
    (Slang.fromFile 99 ["x0 <- x0 + 1"]).map (fun st => st.instructions) =
      .ok [.increment (.X 0)] ∧
    step ⟨[.increment (.X 0)], []⟩ (MState.fromVars []) = none ∧
    (Slang.fromFile 99 ["print y"]).map (fun st => st.instructions) =
      .ok [.print .Y] ∧
    step ⟨[.print .Y], []⟩ (MState.fromVars [4]) = none := by decide

/-- The write path `setReg` always succeeds for index `n ≥ 1` and produces
the grown-and-updated bank. -/
theorem setReg_spec (bank : List Nat) (n value : Nat) (hn : 1 ≤ n) :
    ∃ bank', setReg bank n value = some bank' ∧
      bank'.length = max bank.length n ∧
      bank'.getD (n - 1) 0 = value ∧
      (∀ i, bank.length ≤ i → i < bank'.length → i ≠ n - 1 → bank'.getD i 0 = 0) ∧
      (∀ i, i < bank.length → i ≠ n - 1 → bank'.getD i 0 = bank.getD i 0) := by
  have hn0 : n ≠ 0 := by omega
  refine ⟨(bank ++ List.replicate (n - bank.length) 0).set (n - 1) value,
    by simp [setReg, hn0], ?_, ?_, ?_, ?_⟩
  · simp; omega
  · have hlt : n - 1 < (bank ++ List.replicate (n - bank.length) 0).length := by
      simp; omega
    simp [List.getD_eq_getElem?_getD, List.getElem?_set_self', List.getElem?_eq_getElem hlt]
  · intro i hge hlt hne
    have hlt' : i < n := by simp at hlt; omega
    rw [List.getD_eq_getElem?_getD, List.getElem?_set_ne (by omega : n - 1 ≠ i),
      List.getElem?_append_right hge, List.getElem?_replicate]
    rw [if_pos (by omega : i - bank.length < n - bank.length)]
    rfl
  · intro i hlt hne
    rw [List.getD_eq_getElem?_getD, List.getElem?_set_ne (by omega : n - 1 ≠ i)]
    simp [List.getD_eq_getElem?_getD, List.getElem?_append, hlt]

/-- C5: register-file semantics.  For index `n ≥ 1`: a read past the bank's
length yields 0 (reads never mutate: `get_var` takes `&self` and is a pure
function here); a write grows the bank to length `max(len, n) ≥ n`, the
newly created slots other than slot `n` holding 0, the old slots preserved,
and slot `n` holding the written value — stated for both the X and the Z
bank through `set_var`; and a `Decrement` on a register holding 0 leaves
every register unchanged and just advances `pc` (saturation, no
underflow). -/
theorem C5_register_file :
    (∀ (s : MState) (n : Nat), 1 ≤ n → s.x.length < n → s.getVar (.X n) = some 0) ∧
    (∀ (s : MState) (n : Nat), 1 ≤ n → s.z.length < n → s.getVar (.Z n) = some 0) ∧
    (∀ (s : MState) (n value : Nat), 1 ≤ n →
      ∃ s', s.setVar (.X n) value = some s' ∧ s'.z = s.z ∧ s'.y = s.y ∧ s'.pc = s.pc ∧
        setReg s.x n value = some s'.x ∧ n ≤ s'.x.length ∧ s'.x.getD (n - 1) 0 = value ∧
        (∀ i, s.x.length ≤ i → i < s'.x.length → i ≠ n - 1 → s'.x.getD i 0 = 0) ∧
        (∀ i, i < s.x.length → i ≠ n - 1 → s'.x.getD i 0 = s.x.getD i 0)) ∧
    (∀ (s : MState) (n value : Nat), 1 ≤ n →
      ∃ s', s.setVar (.Z n) value = some s' ∧ s'.x = s.x ∧ s'.y = s.y ∧ s'.pc = s.pc ∧
        setReg s.z n value = some s'.z ∧ n ≤ s'.z.length ∧ s'.z.getD (n - 1) 0 = value ∧
        (∀ i, s.z.length ≤ i → i < s'.z.length → i ≠ n - 1 → s'.z.getD i 0 = 0) ∧
        (∀ i, i < s.z.length → i ≠ n - 1 → s'.z.getD i 0 = s.z.getD i 0)) ∧
    (∀ (p : MProgram) (s : MState) (var : Variable),
      p.instructions.get? s.pc = some (.decrement var) → s.getVar var = some 0 →
      step p s = some { s with pc := s.pc + 1 }) := by
  refine ⟨?_, ?_, ?_, ?_, ?_⟩
  · intro s n _ hlen
    simp [MState.getVar, getReg, Nat.not_le.2 hlen]
  · intro s n _ hlen
    simp [MState.getVar, getReg, Nat.not_le.2 hlen]
  · intro s n value hn
    obtain ⟨bank', hset, hlen, hval, hnew, hold⟩ := setReg_spec s.x n value hn
    exact ⟨{ s with x := bank' }, by simp [MState.setVar, hset], rfl, rfl, rfl, hset,
      by change n ≤ bank'.length; omega, hval, hnew, hold⟩
  · intro s n value hn
    obtain ⟨bank', hset, hlen, hval, hnew, hold⟩ := setReg_spec s.z n value hn
    exact ⟨{ s with z := bank' }, by simp [MState.setVar, hset], rfl, rfl, rfl, hset,
      by change n ≤ bank'.length; omega, hval, hnew, hold⟩
  · intro p s var hpc hv
    rw [List.get?_eq_getElem?] at hpc
    simp [step, hpc, hv]

/-- C5 witness: a read past the X bank, a write to X index 3 growing the
bank with zero fill, and a decrement of a zero register. -/
theorem C5_register_file_witness :
    MState.getVar ⟨[7], [], 0, 0⟩ (.X 2) = some 0 ∧
    MState.setVar ⟨[7], [], 4, 9⟩ (.X 3) 5 = some ⟨[7, 0, 5], [], 4, 9⟩ ∧
    step ⟨[.decrement (.Z 1)], []⟩ ⟨[], [], 9, 0⟩ = some ⟨[], [], 9, 1⟩ := by
  exact ⟨C5_register_file.1 ⟨[7], [], 0, 0⟩ 2 (by decide) (by decide), by decide,
    C5_register_file.2.2.2.2 ⟨[.decrement (.Z 1)], []⟩ ⟨[], [], 9, 0⟩ (.Z 1) rfl (by decide)⟩

/-- C6: `JumpNonZero{v,to}` with `register[v] > 0` sets `pc` to the label
table's entry for `to`, or to the instruction count when `to` is absent
(halting, not an error); with `register[v] = 0` it increments `pc`. -/
theorem C6_jump_non_zero (p : MProgram) (s : MState) (var : Variable)
    (tgt : LabelCode) (n : Nat)
    (hpc : p.instructions.get? s.pc = some (.jumpNonZero var tgt))
    (hv : s.getVar var = some n) :
    (0 < n → step p s =
      some { s with pc := (lookupLabel p.labels tgt).getD p.instructions.length }) ∧
    (0 < n → lookupLabel p.labels tgt = none →
      step p s = some { s with pc := p.instructions.length }) ∧
    (n = 0 → step p s = some { s with pc := s.pc + 1 }) := by
  rw [List.get?_eq_getElem?] at hpc
  refine ⟨fun hn => ?_, fun hn habs => ?_, fun hn => ?_⟩
  · simp [step, hpc, hv, hn]
  · simp [step, hpc, hv, hn, habs]
  · simp [step, hpc, hv, hn]

/-- C6 witness: a jump on a positive register through the label table, a
jump to an absent label halting at the instruction count, and a jump on a
zero register falling through. -/
theorem C6_jump_non_zero_witness :
    step ⟨[.jumpNonZero .Y 3, .nop], [(3, 1)]⟩ ⟨[], [], 2, 0⟩ = some ⟨[], [], 2, 1⟩ ∧
    step ⟨[.jumpNonZero .Y 4, .nop], [(3, 1)]⟩ ⟨[], [], 2, 0⟩ = some ⟨[], [], 2, 2⟩ ∧
    step ⟨[.jumpNonZero .Y 3, .nop], [(3, 1)]⟩ ⟨[], [], 0, 0⟩ = some ⟨[], [], 0, 1⟩ := by
  refine ⟨?_, ?_, ?_⟩
  · exact ((C6_jump_non_zero ⟨[.jumpNonZero .Y 3, .nop], [(3, 1)]⟩ ⟨[], [], 2, 0⟩
      .Y 3 2 rfl rfl).1 (by decide)).trans (by decide)
  · exact ((C6_jump_non_zero ⟨[.jumpNonZero .Y 4, .nop], [(3, 1)]⟩ ⟨[], [], 2, 0⟩
      .Y 4 2 rfl rfl).2.1 (by decide) (by decide)).trans (by decide)
  · exact ((C6_jump_non_zero ⟨[.jumpNonZero .Y 3, .nop], [(3, 1)]⟩ ⟨[], [], 0, 0⟩
      .Y 3 0 rfl rfl).2.2 rfl).trans (by decide)

/-- The user source of the C8 scenario: `@foo` on (0-based) line 5 of an
otherwise well-formed file. -/
def atFooFile : List String := ["nop", "nop", "nop", "nop", "nop", "@foo"]

end Slang

namespace Slang

set_option maxRecDepth 8000 in
/-- C8 counterexample: the claim says the unknown directive `@foo` on line 5
of the source file is reported with carried line number 5; in the source,
`from_file` chains the 108 prologue lines *before* the user lines and
enumerates across the whole sequence, so the error carries 113, not 5. -/
theorem C8_line_number_not_5 :
    fromFile 99 atFooFile = .error (.perr "Unknown directive" 113) ∧
    Except.error (PErr.perr "Unknown directive" 113) ≠
      (Except.error (PErr.perr "Unknown directive" 5) : Except PErr AsmSt) := by
  exact ⟨by decide, by decide⟩

set_option maxRecDepth 8000 in
/-- C8 (amended): assembling a source file whose 0-based line 5 holds the
unknown directive `@foo` (earlier lines well formed) fails with the single
syntax error `Unknown directive`, whose carried 0-based line number is the
number of prepended prologue lines plus 5, i.e. `108 + 5 = 113`. -/
theorem C8_unknown_directive_line :
    prologueLines.length = 108 ∧
    fromFile 99 atFooFile = .error (.perr "Unknown directive" (prologueLines.length + 5)) := by
  exact ⟨by decide, by decide⟩

/-- C10: placeholder substitution in `expand_macro` is plain, per-name
substring replacement (`str::replace` keyed on the bare placeholder name):
for the macro `foo {a}` with body line `state`, invoking `foo y` replaces
the `a` *inside* the word `state`, giving `styte` — whereas whole-token
substitution would leave `state` unchanged.  (With a single placeholder the
unspecified `HashMap` iteration order is immaterial.) -/
theorem C10_substring_replacement :
    (macroParse "foo {a}".toList).replacements = [("a", 0)] ∧
    applyReplacements (macroParse "foo {a}".toList).replacements ["y".toList]
      "state".toList = .ok "styte".toList ∧
    substWholeTokens "a".toList "y".toList "state".toList = "state".toList ∧
    "styte".toList ≠ "state".toList := by
  exact ⟨by decide, by decide, by decide, by decide⟩

/-!
### Decimal round trips, for the universally quantified parsing claims
-/

/-- The rendered line `x<n> <- x<n> + 1`, with `n` in standard decimal. -/
def lineInc (n : Nat) : List Char :=
  'x' :: natChars n ++ " <- x".toList ++ natChars n ++ " + 1".toList

/-- The rendered line `x<n> <- x<m> - 1`. -/
def lineDec (n m : Nat) : List Char :=
  'x' :: natChars n ++ " <- x".toList ++ natChars m ++ " - 1".toList

theorem digitsVal_append (l1 l2 : List Char) (acc : Nat) :
    digitsVal acc (l1 ++ l2) =
      match digitsVal acc l1 with
      | some v => digitsVal v l2
      | none => none := by
  induction l1 generalizing acc with
  | nil => rfl
  | cons c cs ih =>
    simp only [List.cons_append, digitsVal]
    by_cases hc : isDigit c
    · simp [hc, ih]
    · simp [hc]

theorem digit_digChar {d : Nat} (h : d < 10) : isDigit (digChar d) = true := by
  interval_cases d <;> decide

theorem digVal_digChar {d : Nat} (h : d < 10) : digVal (digChar d) = d := by
  interval_cases d <;> decide

theorem natDigitsAux_digits : ∀ (f n : Nat), ∀ c ∈ natDigitsAux f n, isDigit c = true := by
  intro f
  induction f with
  | zero => intro n c hc; simp [natDigitsAux] at hc
  | succ f ih =>
    intro n c hc
    rw [natDigitsAux] at hc
    by_cases h0 : n = 0
    · simp [h0] at hc
    · rw [if_neg h0] at hc
      rcases List.mem_append.1 hc with h | h
      · exact ih _ c h
      · simp at h
        rw [h]
        exact digit_digChar (Nat.mod_lt n (by norm_num))

theorem natChars_digits (n : Nat) : ∀ c ∈ natChars n, isDigit c = true := by
  intro c hc
  unfold natChars at hc
  by_cases h0 : n = 0
  · simp [h0] at hc; rw [hc]; decide
  · rw [if_neg h0] at hc
    exact natDigitsAux_digits _ _ c hc

theorem natChars_ne_nil (n : Nat) : natChars n ≠ [] := by
  unfold natChars
  by_cases h0 : n = 0
  · simp [h0]
  · rw [if_neg h0, natDigitsAux, if_neg h0]
    simp

theorem digitsVal_natDigitsAux : ∀ (f n : Nat), n < f →
    digitsVal 0 (natDigitsAux f n) = some n := by
  intro f
  induction f with
  | zero => omega
  | succ f ih =>
    intro n h
    by_cases h0 : n = 0
    · subst h0; simp [natDigitsAux, digitsVal]
    · rw [natDigitsAux, if_neg h0, digitsVal_append, ih (n / 10) (by omega)]
      have hm : n % 10 < 10 := Nat.mod_lt n (by norm_num)
      simp [digitsVal, digit_digChar hm, digVal_digChar hm]
      omega

theorem digitsVal_natChars (n : Nat) : digitsVal 0 (natChars n) = some n := by
  unfold natChars
  by_cases h0 : n = 0
  · subst h0; decide
  · rw [if_neg h0]
    exact digitsVal_natDigitsAux (n + 1) n (by omega)

theorem natChars_inj {n m : Nat} (h : natChars n = natChars m) : n = m := by
  have h1 := digitsVal_natChars n
  rw [h, digitsVal_natChars] at h1
  exact (Option.some.inj h1).symm

theorem parseUsize_natChars (n : Nat) :
    parseUsize (natChars n) = if n ≤ USIZE_MAX then some n else none := by
  obtain ⟨c, cs, hcons⟩ : ∃ c cs, natChars n = c :: cs := by
    cases h : natChars n with
    | nil => exact absurd h (natChars_ne_nil n)
    | cons c cs => exact ⟨c, cs, rfl⟩
  have hc : isDigit c = true := natChars_digits n c (hcons ▸ List.mem_cons_self c cs)
  have hplus : c ≠ '+' := by
    intro h; rw [h] at hc; exact absurd hc (by decide)
  rw [hcons]
  unfold parseUsize
  simp only [List.head?_cons, Option.some.injEq, if_neg hplus]
  rw [if_neg (by simp : ¬(c :: cs = [])), ← hcons, digitsVal_natChars]

theorem pfxRest_eq_some {p : List Char} : ∀ {s r : List Char},
    pfxRest p s = some r ↔ s = p ++ r := by
  induction p with
  | nil => intro s r; simp [pfxRest]
  | cons a ps ih =>
    intro s r
    cases s with
    | nil => simp [pfxRest]
    | cons b bs =>
      simp only [pfxRest, List.cons_append, List.cons.injEq]
      by_cases hab : a = b
      · subst hab
        simp [ih]
      · rw [if_neg hab]
        constructor
        · intro h; cases h
        · rintro ⟨h1, -⟩; exact absurd h1.symm hab

theorem pfxRest_append (p r : List Char) : pfxRest p (p ++ r) = some r :=
  pfxRest_eq_some.2 rfl

theorem pfxRest_self (p : List Char) : pfxRest p p = some [] := by
  have h := pfxRest_append p []
  rwa [List.append_nil] at h

theorem takeWhile_digits_append {a : List Char} (ha : ∀ c ∈ a, isDigit c = true)
    {b : Char} (hb : isDigit b = false) (t : List Char) :
    (a ++ b :: t).takeWhile isDigit = a ∧ (a ++ b :: t).dropWhile isDigit = b :: t := by
  induction a with
  | nil => simp [List.takeWhile_cons, List.dropWhile_cons, hb]
  | cons c cs ih =>
    have hc := ha c (List.mem_cons_self c cs)
    obtain ⟨h1, h2⟩ := ih (fun d hd => ha d (List.mem_cons_of_mem c hd))
    simp [List.takeWhile_cons, List.dropWhile_cons, hc, h1, h2]

theorem digitSpan_digits_append {a : List Char} (ha : ∀ c ∈ a, isDigit c = true)
    {b : Char} (hb : isDigit b = false) (t : List Char) :
    digitSpan (a ++ b :: t) = (a, b :: t) := by
  obtain ⟨h1, h2⟩ := takeWhile_digits_append ha hb t
  simp [digitSpan, h1, h2]

theorem readVarToken_x (ds : List Char) (hds : ∀ c ∈ ds, isDigit c = true)
    (hne : ds ≠ []) (t : List Char) :
    readVarToken ('x' :: (ds ++ ' ' :: t)) = some ('x' :: ds, ' ' :: t) := by
  show readVarTokenCore 'x' (ds ++ ' ' :: t) = some ('x' :: ds, ' ' :: t)
  unfold readVarTokenCore
  rw [if_neg (by decide), if_pos (Or.inl rfl)]
  rw [digitSpan_digits_append hds (by decide) t]
  cases ds with
  | nil => exact absurd rfl hne
  | cons d ds' => rfl

/-- If the digit string of `n` is a prefix of that of `m` followed by a
non-digit, the leftover either refutes the match or starts with a digit. -/
theorem pfxRest_natChars_ne {n m : Nat} (hne : n ≠ m) {b : Char}
    (hb : isDigit b = false) (t : List Char) {r : List Char}
    (h : pfxRest (natChars n) (natChars m ++ b :: t) = some r) :
    ∃ d r', r = d :: r' ∧ isDigit d = true := by
  rw [pfxRest_eq_some] at h
  rcases Nat.lt_trichotomy (natChars n).length (natChars m).length with hl | hl | hl
  · -- natChars n is a proper prefix of natChars m; the leftover starts
    -- inside natChars m, hence with a digit
    have hdrop := congrArg (List.drop (natChars n).length) h
    rw [List.drop_append_of_le_length (by omega), List.drop_left] at hdrop
    cases hd : (natChars m).drop (natChars n).length with
    | nil =>
      have := congrArg List.length hd
      simp at this
      omega
    | cons d r' =>
      refine ⟨d, r' ++ b :: t, by rw [← hdrop, hd]; simp, ?_⟩
      have : d ∈ natChars m := by
        have : d ∈ (natChars m).drop (natChars n).length := by rw [hd]; simp
        exact List.mem_of_mem_drop this
      exact natChars_digits m d this
  · -- equal lengths force equal digit strings, contradicting n ≠ m
    obtain ⟨heq, -⟩ := List.append_inj h.symm hl
    exact absurd (natChars_inj heq) hne
  · -- natChars n would extend past natChars m into the non-digit b
    exfalso
    obtain ⟨j, hj⟩ : ∃ j, (natChars n).length = (natChars m).length + (j + 1) :=
      ⟨(natChars n).length - (natChars m).length - 1, by omega⟩
    have htake : natChars n = natChars m ++ (b :: t).take (j + 1) := by
      have h' := congrArg (List.take (natChars n).length) h
      rw [List.take_left] at h'
      rw [← h', hj, List.take_append]
    have hbmem : b ∈ natChars n := by
      rw [htake]
      simp [List.take_cons]
    rw [natChars_digits n b hbmem] at hb
    exact Bool.noConfusion hb

theorem lineInc_shape (n : Nat) : lineInc n =
    'x' :: (natChars n ++ ' ' :: ('<' :: '-' :: ' ' :: 'x' ::
      (natChars n ++ (' ' :: '+' :: ' ' :: '1' :: [])))) := by
  unfold lineInc
  rw [show " <- x".toList = ' ' :: '<' :: '-' :: ' ' :: 'x' :: [] from rfl,
    show " + 1".toList = ' ' :: '+' :: ' ' :: '1' :: [] from rfl]
  simp [List.append_assoc]

theorem lineDec_shape (n m : Nat) : lineDec n m =
    'x' :: (natChars n ++ ' ' :: ('<' :: '-' :: ' ' :: 'x' ::
      (natChars m ++ (' ' :: '-' :: ' ' :: '1' :: [])))) := by
  unfold lineDec
  rw [show " <- x".toList = ' ' :: '<' :: '-' :: ' ' :: 'x' :: [] from rfl,
    show " - 1".toList = ' ' :: '-' :: ' ' :: '1' :: [] from rfl]
  simp [List.append_assoc]

theorem matchInc_lineInc (n : Nat) : matchInc (lineInc n) = some ('x' :: natChars n) := by
  unfold matchInc
  rw [lineInc_shape, readVarToken_x (natChars n) (natChars_digits n) (natChars_ne_nil n)]
  simp only [Option.bind_eq_bind, Option.some_bind]
  rw [show (' ' :: ('<' :: '-' :: ' ' :: 'x' ::
        (natChars n ++ (' ' :: '+' :: ' ' :: '1' :: [])))) =
      " <- ".toList ++ ('x' :: natChars n ++ (' ' :: '+' :: ' ' :: '1' :: [])) from by simp,
    pfxRest_append]
  simp only [Option.some_bind]
  rw [show ('x' :: natChars n ++ (' ' :: '+' :: ' ' :: '1' :: [])) =
      ('x' :: natChars n) ++ " + 1".toList from by simp, pfxRest_append]
  simp only [Option.some_bind]
  rw [pfxRest_self]
  rfl

/-- A digit head refutes a literal-space prefix. -/
theorem pfxRest_space_digit {d : Char} (hd : isDigit d = true) (p r : List Char) :
    pfxRest (' ' :: p) (d :: r) = none := by
  have hds : ¬(' ' = d) := by
    intro h
    rw [← h] at hd
    exact Bool.noConfusion hd
  simp [pfxRest, hds]

theorem matchInc_lineDec {n m : Nat} (hne : n ≠ m) : matchInc (lineDec n m) = none := by
  unfold matchInc
  rw [lineDec_shape, readVarToken_x (natChars n) (natChars_digits n) (natChars_ne_nil n)]
  simp only [Option.bind_eq_bind, Option.some_bind]
  rw [show (' ' :: ('<' :: '-' :: ' ' :: 'x' ::
        (natChars m ++ (' ' :: '-' :: ' ' :: '1' :: [])))) =
      " <- ".toList ++ ('x' :: (natChars m ++ (' ' :: '-' :: ' ' :: '1' :: []))) from by simp,
    pfxRest_append]
  simp only [Option.some_bind]
  have hstep : pfxRest ('x' :: natChars n) ('x' :: (natChars m ++ (' ' :: '-' :: ' ' :: '1' :: []))) =
      pfxRest (natChars n) (natChars m ++ (' ' :: '-' :: ' ' :: '1' :: [])) := by
    simp [pfxRest]
  rw [hstep]
  cases hpf : pfxRest (natChars n) (natChars m ++ ' ' :: ('-' :: ' ' :: '1' :: [])) with
  | none => rfl
  | some r =>
    obtain ⟨d, r', hr, hd⟩ := pfxRest_natChars_ne hne (by decide) _ hpf
    subst hr
    simp only [Option.some_bind]
    rw [show " + 1".toList = ' ' :: "+ 1".toList from rfl, pfxRest_space_digit hd]
    rfl

theorem matchDec_lineDec {n m : Nat} (hne : n ≠ m) : matchDec (lineDec n m) = none := by
  unfold matchDec
  rw [lineDec_shape, readVarToken_x (natChars n) (natChars_digits n) (natChars_ne_nil n)]
  simp only [Option.bind_eq_bind, Option.some_bind]
  rw [show (' ' :: ('<' :: '-' :: ' ' :: 'x' ::
        (natChars m ++ (' ' :: '-' :: ' ' :: '1' :: [])))) =
      " <- ".toList ++ ('x' :: (natChars m ++ (' ' :: '-' :: ' ' :: '1' :: []))) from by simp,
    pfxRest_append]
  simp only [Option.some_bind]
  have hstep : pfxRest ('x' :: natChars n) ('x' :: (natChars m ++ (' ' :: '-' :: ' ' :: '1' :: []))) =
      pfxRest (natChars n) (natChars m ++ (' ' :: '-' :: ' ' :: '1' :: [])) := by
    simp [pfxRest]
  rw [hstep]
  cases hpf : pfxRest (natChars n) (natChars m ++ ' ' :: ('-' :: ' ' :: '1' :: [])) with
  | none => rfl
  | some r =>
    obtain ⟨d, r', hr, hd⟩ := pfxRest_natChars_ne hne (by decide) _ hpf
    subst hr
    simp only [Option.some_bind]
    rw [show " - 1".toList = ' ' :: "- 1".toList from rfl, pfxRest_space_digit hd]
    rfl

theorem matchJnz_lineDec (n m : Nat) : matchJnz (lineDec n m) = none := by
  unfold matchJnz
  rw [lineDec_shape]
  rw [show "if ".toList = 'i' :: "f ".toList from rfl]
  rw [show pfxRest ('i' :: "f ".toList) ('x' :: _) = none from by simp [pfxRest]]
  rfl

theorem matchPrint_lineDec (n m : Nat) : matchPrint (lineDec n m) = none := by
  unfold matchPrint
  rw [lineDec_shape]
  rw [show "print ".toList = 'p' :: "rint ".toList from rfl]
  rw [show pfxRest ('p' :: "rint ".toList) ('x' :: _) = none from by simp [pfxRest]]
  rfl

/-- C7 counterexample: the claim quantifies over all `n ≥ 1`, but for
`n = 2^64 = usize::MAX + 1` the line `x<n> <- x<n> + 1` matches the
increment regex and then `Variable::parse` propagates the overflow error of
`str::parse::<usize>()`, so `Instruction::parse` errors instead of yielding
`Increment{X(n)}`. -/
theorem C7_overflow_not_increment :
    Instr.parse (lineInc (USIZE_MAX + 1)) 0 = .error .intErr ∧
    (Except.error PErr.intErr : Except PErr (Option Instr)) ≠
      .ok (some (.increment (.X (USIZE_MAX + 1)))) := by
  exact ⟨by decide, by decide⟩

/-- C7 (amended): for all `1 ≤ n ≤ usize::MAX`, `Instruction::parse` on
`x<n> <- x<n> + 1` yields `Increment{X(n)}`; and for all `n ≠ m` (no bound
needed), `x<n> <- x<m> - 1` matches no primitive at all — the `(\1)`
backreference of the decrement regex requires the identical variable token
on both sides — so `parse` returns no instruction. -/
theorem C7_inc_dec_parse :
    (∀ n lineNum, 1 ≤ n → n ≤ USIZE_MAX →
      Instr.parse (lineInc n) lineNum = .ok (some (.increment (.X n)))) ∧
    (∀ n m lineNum, n ≠ m → Instr.parse (lineDec n m) lineNum = .ok none) := by
  constructor
  · intro n lineNum _ hle
    unfold Instr.parse
    rw [matchInc_lineInc]
    have hv : Variable.parse ('x' :: natChars n) lineNum = .ok (.X n) := by
      show (match parseUsize (natChars n) with
        | some k => Except.ok (Variable.X k)
        | none => Except.error PErr.intErr) = Except.ok (Variable.X n)
      rw [parseUsize_natChars, if_pos hle]
    simp [hv, Except.bind]
  · intro n m lineNum hne
    unfold Instr.parse
    have hnop : ¬(lineDec n m = "nop".toList) := by
      rw [lineDec_shape]
      simp [show "nop".toList = 'n' :: "op".toList from rfl]
    have hstate : ¬(lineDec n m = "state".toList) := by
      rw [lineDec_shape]
      simp [show "state".toList = 's' :: "tate".toList from rfl]
    rw [matchInc_lineDec hne, matchDec_lineDec hne, matchJnz_lineDec, matchPrint_lineDec,
      if_neg hnop, if_neg hstate]
    rfl

/-- C7 witness: the amended parse facts at `n = 1` and `(n, m) = (1, 2)`. -/
theorem C7_inc_dec_parse_witness :
    Instr.parse "x1 <- x1 + 1".toList 0 = .ok (some (.increment (.X 1))) ∧
    Instr.parse "x1 <- x2 - 1".toList 0 = .ok none := by
  refine ⟨?_, ?_⟩
  · have h := C7_inc_dec_parse.1 1 0 (by decide) (by decide)
    rwa [show lineInc 1 = "x1 <- x1 + 1".toList from by decide] at h
  · have h := C7_inc_dec_parse.2 1 2 0 (by decide)
    rwa [show lineDec 1 2 = "x1 <- x2 - 1".toList from by decide] at h

/-!
### Hygiene: the counter/trace discipline

`Chain lo l hi` says `l` is a strictly increasing run of allocated numbers,
each above `lo`, ending no higher than `hi` — precisely how a freshness
counter hands out values: every allocation returns `counter + 1` and bumps
the counter, so the values allocated between two points in time form a
chain between the two counter readings.
-/

def Chain (lo : Nat) : List Nat → Nat → Prop
  | [], hi => lo ≤ hi
  | x :: xs, hi => lo < x ∧ Chain x xs hi

theorem Chain.le {lo hi : Nat} : ∀ {l : List Nat}, Chain lo l hi → lo ≤ hi
  | [], h => h
  | _ :: _, h => Nat.le_trans (Nat.le_of_lt h.1) (Chain.le h.2)

theorem Chain.weaken {lo' lo hi : Nat} (hle : lo' ≤ lo) :
    ∀ {l : List Nat}, Chain lo l hi → Chain lo' l hi
  | [], h => Nat.le_trans hle h
  | _ :: _, h => ⟨Nat.lt_of_le_of_lt hle h.1, h.2⟩

theorem Chain.append {lo mid hi : Nat} :
    ∀ {l1 l2 : List Nat}, Chain lo l1 mid → Chain mid l2 hi → Chain lo (l1 ++ l2) hi
  | [], _, h1, h2 => h2.weaken h1
  | _ :: _, _, h1, h2 => ⟨h1.1, Chain.append h1.2 h2⟩

theorem Chain.mem {lo hi x : Nat} :
    ∀ {l : List Nat}, Chain lo l hi → x ∈ l → lo < x ∧ x ≤ hi := by
  intro l
  induction l generalizing lo with
  | nil => intro _ hx; cases hx
  | cons y ys ih =>
    intro h hx
    rcases List.mem_cons.1 hx with rfl | hx
    · exact ⟨h.1, h.2.le⟩
    · obtain ⟨h1, h2⟩ := ih h.2 hx
      exact ⟨Nat.lt_trans h.1 h1, h2⟩

theorem Chain.pairwise {lo hi : Nat} :
    ∀ {l : List Nat}, Chain lo l hi → l.Pairwise (· < ·) := by
  intro l
  induction l generalizing lo with
  | nil => intro _; exact List.Pairwise.nil
  | cons y ys ih =>
    intro h
    exact List.Pairwise.cons (fun x hx => (Chain.mem h.2 hx).1) (ih h.2)

/-- The label-allocation numbers of group `g` in a trace, in order. -/
def labNums (g : Nat) (tr : List Ev) : List Nat :=
  tr.filterMap fun e =>
    match e with
    | .lab g' n => if g' = g then some n else none
    | .tmp _ => none

/-- The temp-variable allocation numbers in a trace, in order. -/
def tmpNums (tr : List Ev) : List Nat :=
  tr.filterMap fun e =>
    match e with
    | .tmp n => some n
    | .lab _ _ => none

/-- The generated labels of a trace as (group, number) pairs, in order. -/
def labPairs (tr : List Ev) : List (Nat × Nat) :=
  tr.filterMap fun e =>
    match e with
    | .lab g n => some (g, n)
    | .tmp _ => none

theorem labNums_append (g : Nat) (t1 t2 : List Ev) :
    labNums g (t1 ++ t2) = labNums g t1 ++ labNums g t2 :=
  List.filterMap_append t1 t2 _

theorem tmpNums_append (t1 t2 : List Ev) :
    tmpNums (t1 ++ t2) = tmpNums t1 ++ tmpNums t2 :=
  List.filterMap_append t1 t2 _

/-- The counter/trace discipline between two assembler states: the trace
grew by some `Δ` whose per-group label numbers chain the old group counter
to the new one, and whose temp numbers chain the old temp counter to the
new one. -/
def TraceOK (s s' : AsmSt) : Prop :=
  ∃ Δ, s'.trace = s.trace ++ Δ ∧
    (∀ g, Chain (s.maxLabels.getD g 0) (labNums g Δ) (s'.maxLabels.getD g 0)) ∧
    Chain s.maxTempVar (tmpNums Δ) s'.maxTempVar

theorem TraceOK.of_eq {s s' : AsmSt} (ht : s'.trace = s.trace)
    (hl : s'.maxLabels = s.maxLabels) (hm : s'.maxTempVar = s.maxTempVar) :
    TraceOK s s' :=
  ⟨[], by simp [ht], fun g => by rw [hl]; exact Nat.le_refl _, by rw [hm]; exact Nat.le_refl _⟩

theorem TraceOK.refl (s : AsmSt) : TraceOK s s := TraceOK.of_eq rfl rfl rfl

theorem TraceOK.trans {s1 s2 s3 : AsmSt} (h1 : TraceOK s1 s2) (h2 : TraceOK s2 s3) :
    TraceOK s1 s3 := by
  obtain ⟨d1, ht1, hl1, hm1⟩ := h1
  obtain ⟨d2, ht2, hl2, hm2⟩ := h2
  exact ⟨d1 ++ d2, by rw [ht2, ht1, List.append_assoc],
    fun g => by rw [labNums_append]; exact (hl1 g).append (hl2 g),
    by rw [tmpNums_append]; exact hm1.append hm2⟩

theorem getD_set_self {l : List Nat} {i : Nat} (x : Nat) (h : i < l.length) :
    (l.set i x).getD i 0 = x := by
  simp [List.getD_eq_getElem?_getD, List.getElem?_set_self', List.getElem?_eq_getElem h]

theorem getD_set_ne {l : List Nat} {i j : Nat} (x : Nat) (h : i ≠ j) :
    (l.set i x).getD j 0 = l.getD j 0 := by
  simp [List.getD_eq_getElem?_getD, List.getElem?_set_ne h]

/-- The label-allocation closure touches only `maxLabels` and the trace, and
obeys the counter discipline. -/
theorem autoLabClosure_spec {g v : Nat} {memo : List (Nat × Nat)} {st : AsmSt}
    {out : List Char} {memo' : List (Nat × Nat)} {st' : AsmSt}
    (h : autoLabClosure g v memo st = .ok (out, memo', st'))
    (hg : g < 5) (hlen : st.maxLabels.length = 5) :
    st'.instructions = st.instructions ∧ st'.labels = st.labels ∧
    st'.macros = st.macros ∧ st'.maxTempVar = st.maxTempVar ∧
    st'.maxLabels.length = 5 ∧ TraceOK st st' := by
  unfold autoLabClosure at h
  by_cases hv : USIZE_MAX < v
  · rw [if_pos hv] at h; cases h
  rw [if_neg hv] at h
  by_cases hkey : v * 5 + g ≤ USIZE_MAX
  · rw [if_pos hkey] at h
    cases hfind : memo.find? (fun p => p.1 = v * 5 + g) with
    | some p =>
      rw [hfind] at h
      injection h with h
      injection h with h1 h
      injection h with h2 h3
      subst h3
      exact ⟨rfl, rfl, rfl, rfl, hlen, TraceOK.refl st⟩
    | none =>
      rw [hfind] at h
      by_cases hcur : st.maxLabels.getD g 0 = USIZE_MAX
      · rw [if_pos hcur] at h; cases h
      rw [if_neg hcur] at h
      by_cases hnew : (st.maxLabels.getD g 0 + 1) * 5 + g ≤ USIZE_MAX
      · rw [if_pos hnew] at h
        injection h with h
        injection h with h1 h
        injection h with h2 h3
        subst h3
        refine ⟨rfl, rfl, rfl, rfl, by simp [hlen], ?_⟩
        refine ⟨[Ev.lab g (st.maxLabels.getD g 0 + 1)], rfl, fun g' => ?_, Nat.le_refl _⟩
        by_cases hgg : g = g'
        · subst hgg
          rw [show labNums g [Ev.lab g (st.maxLabels.getD g 0 + 1)] =
              [st.maxLabels.getD g 0 + 1] from by simp [labNums, List.filterMap]]
          exact ⟨Nat.lt_succ_self _, by
            rw [getD_set_self _ (hlen ▸ hg)]; exact Nat.le_refl _⟩
        · rw [show labNums g' [Ev.lab g (st.maxLabels.getD g 0 + 1)] = [] from by
              simp [labNums, List.filterMap, hgg]]
          rw [getD_set_ne _ hgg]
          exact Nat.le_refl _
      · rw [if_neg hnew] at h; cases h
  · rw [if_neg hkey] at h; cases h

/-- The temp-variable-allocation closure touches only `maxTempVar` and the
trace, and obeys the counter discipline. -/
theorem autoVarClosure_spec {name : String} {memo : List (String × Nat)} {st : AsmSt}
    {out : List Char} {memo' : List (String × Nat)} {st' : AsmSt}
    (h : autoVarClosure name memo st = .ok (out, memo', st')) :
    st'.instructions = st.instructions ∧ st'.labels = st.labels ∧
    st'.macros = st.macros ∧ st'.maxLabels = st.maxLabels ∧ TraceOK st st' := by
  unfold autoVarClosure at h
  cases hfind : memo.find? (fun p => p.1 = name) with
  | some p =>
    rw [hfind] at h
    injection h with h
    injection h with h1 h
    injection h with h2 h3
    subst h3
    exact ⟨rfl, rfl, rfl, rfl, TraceOK.refl st⟩
  | none =>
    rw [hfind] at h
    by_cases hcur : st.maxTempVar = USIZE_MAX
    · rw [if_pos hcur] at h; cases h
    rw [if_neg hcur] at h
    injection h with h
    injection h with h1 h
    injection h with h2 h3
    subst h3
    refine ⟨rfl, rfl, rfl, rfl, ?_⟩
    refine ⟨[Ev.tmp (st.maxTempVar + 1)], rfl, fun g => ?_, ?_⟩
    · rw [show labNums g [Ev.tmp (st.maxTempVar + 1)] = [] from by
          simp [labNums, List.filterMap]]
      exact Nat.le_refl _
    · rw [show tmpNums [Ev.tmp (st.maxTempVar + 1)] = [st.maxTempVar + 1] from by
          simp [tmpNums, List.filterMap]]
      exact ⟨Nat.lt_succ_self _, Nat.le_refl _⟩

/-- Well-formedness of a label-scanner state: a pending group index is a
real group (0..4), as `labFresh` produces them. -/
def LScanWf : LScan → Prop
  | .pctG g _ => g < 5
  | .pctGN g _ => g < 5
  | _ => True

theorem labFresh_lt {c : Char} {g : Nat} {x : Option Nat}
    (h : labFresh c = some (g, x)) : g < 5 := by
  unfold labFresh at h
  split at h
  · rename_i hc
    obtain ⟨hA, hE⟩ := hc
    simp only [Option.some.injEq, Prod.mk.injEq] at h
    obtain ⟨h1, -⟩ := h
    subst h1
    rw [Char.le_def, UInt32.le_def] at hA hE
    simp [BitVec.le_def] at hA hE
    have h65 : 'A'.val.toBitVec.toNat = 65 := by decide
    have h69 : 'E'.val.toBitVec.toNat = 69 := by decide
    have hc : c.toNat = c.val.toBitVec.toNat := rfl
    have hA' : 'A'.toNat = 65 := by decide
    rw [hc, hA']
    omega
  · cases h

theorem labStep_spec {c : Char} {ls : LScan} {memo : List (Nat × Nat)} {st : AsmSt}
    {out : List Char} {ls' : LScan} {memo' : List (Nat × Nat)} {st' : AsmSt}
    (h : labStep c ls memo st = .ok (out, ls', memo', st'))
    (hwf : LScanWf ls) (hlen : st.maxLabels.length = 5) :
    LScanWf ls' ∧ st'.instructions = st.instructions ∧ st'.labels = st.labels ∧
    st'.macros = st.macros ∧ st'.maxTempVar = st.maxTempVar ∧
    st'.maxLabels.length = 5 ∧ TraceOK st st' := by
  cases ls with
  | idle =>
    simp only [labStep] at h
    split at h <;>
    · simp only [Except.ok.injEq, Prod.mk.injEq] at h
      obtain ⟨-, h2, -, h4⟩ := h
      subst h2; subst h4
      exact ⟨trivial, rfl, rfl, rfl, rfl, hlen, TraceOK.refl st⟩
  | pct =>
    simp only [labStep] at h
    split at h
    · rename_i g x hfresh
      simp only [Except.ok.injEq, Prod.mk.injEq] at h
      obtain ⟨-, h2, -, h4⟩ := h
      subst h2; subst h4
      exact ⟨labFresh_lt hfresh, rfl, rfl, rfl, rfl, hlen, TraceOK.refl st⟩
    · split at h <;>
      · simp only [Except.ok.injEq, Prod.mk.injEq] at h
        obtain ⟨-, h2, -, h4⟩ := h
        subst h2; subst h4
        exact ⟨trivial, rfl, rfl, rfl, rfl, hlen, TraceOK.refl st⟩
  | pctG g raw =>
    simp only [labStep] at h
    split at h
    · simp only [Except.ok.injEq, Prod.mk.injEq] at h
      obtain ⟨-, h2, -, h4⟩ := h
      subst h2; subst h4
      exact ⟨hwf, rfl, rfl, rfl, rfl, hlen, TraceOK.refl st⟩
    · split at h <;>
      · simp only [Except.ok.injEq, Prod.mk.injEq] at h
        obtain ⟨-, h2, -, h4⟩ := h
        subst h2; subst h4
        exact ⟨trivial, rfl, rfl, rfl, rfl, hlen, TraceOK.refl st⟩
  | pctGN g v =>
    simp only [labStep] at h
    split at h
    · simp only [Except.ok.injEq, Prod.mk.injEq] at h
      obtain ⟨-, h2, -, h4⟩ := h
      subst h2; subst h4
      exact ⟨hwf, rfl, rfl, rfl, rfl, hlen, TraceOK.refl st⟩
    · split at h
      · cases h
      · rename_i lab memo1 st1 hclo
        obtain ⟨hi, hlb, hmc, hmt, hln, htr⟩ := autoLabClosure_spec hclo hwf hlen
        split at h <;>
        · simp only [Except.ok.injEq, Prod.mk.injEq] at h
          obtain ⟨-, h2, h3, h4⟩ := h
          subst h2; subst h3; subst h4
          exact ⟨trivial, hi, hlb, hmc, hmt, hln, htr⟩

theorem labFlush_spec {ls : LScan} {memo : List (Nat × Nat)} {st : AsmSt}
    {out : List Char} {memo' : List (Nat × Nat)} {st' : AsmSt}
    (h : labFlush ls memo st = .ok (out, memo', st'))
    (hwf : LScanWf ls) (hlen : st.maxLabels.length = 5) :
    st'.instructions = st.instructions ∧ st'.labels = st.labels ∧
    st'.macros = st.macros ∧ st'.maxTempVar = st.maxTempVar ∧
    st'.maxLabels.length = 5 ∧ TraceOK st st' := by
  cases ls with
  | idle =>
    simp only [labFlush, Except.ok.injEq, Prod.mk.injEq] at h
    obtain ⟨-, -, h4⟩ := h
    subst h4
    exact ⟨rfl, rfl, rfl, rfl, hlen, TraceOK.refl st⟩
  | pct =>
    simp only [labFlush, Except.ok.injEq, Prod.mk.injEq] at h
    obtain ⟨-, -, h4⟩ := h
    subst h4
    exact ⟨rfl, rfl, rfl, rfl, hlen, TraceOK.refl st⟩
  | pctG g raw =>
    simp only [labFlush, Except.ok.injEq, Prod.mk.injEq] at h
    obtain ⟨-, -, h4⟩ := h
    subst h4
    exact ⟨rfl, rfl, rfl, rfl, hlen, TraceOK.refl st⟩
  | pctGN g v => exact autoLabClosure_spec h hwf hlen

/-- The auto-label substitution pass touches only `maxLabels` and the trace,
within the counter discipline. -/
theorem autoLabAux_spec : ∀ (cs : List Char) (ls : LScan) (memo : List (Nat × Nat))
    (st : AsmSt) {out : List Char} {memo' : List (Nat × Nat)} {st' : AsmSt},
    autoLabAux cs ls memo st = .ok (out, memo', st') → LScanWf ls →
    st.maxLabels.length = 5 →
    st'.instructions = st.instructions ∧ st'.labels = st.labels ∧
    st'.macros = st.macros ∧ st'.maxTempVar = st.maxTempVar ∧
    st'.maxLabels.length = 5 ∧ TraceOK st st' := by
  intro cs
  induction cs with
  | nil =>
    intro ls memo st out memo' st' h hwf hlen
    exact labFlush_spec h hwf hlen
  | cons c rest ih =>
    intro ls memo st out memo' st' h hwf hlen
    simp only [autoLabAux] at h
    split at h
    · cases h
    · rename_i out1 ls' memo1 st1 hstep
      split at h
      · cases h
      · rename_i outR memoR stR hrec
        simp only [Except.ok.injEq, Prod.mk.injEq] at h
        obtain ⟨-, -, h4⟩ := h
        subst h4
        obtain ⟨hwf', hi1, hlb1, hmc1, hmt1, hln1, htr1⟩ := labStep_spec hstep hwf hlen
        obtain ⟨hi2, hlb2, hmc2, hmt2, hln2, htr2⟩ := ih ls' memo1 st1 hrec hwf' hln1
        exact ⟨hi2.trans hi1, hlb2.trans hlb1, hmc2.trans hmc1, hmt2.trans hmt1,
          hln2, htr1.trans htr2⟩

theorem varStep_spec {c : Char} {vs : VScan} {memo : List (String × Nat)} {st : AsmSt}
    {out : List Char} {vs' : VScan} {memo' : List (String × Nat)} {st' : AsmSt}
    (h : varStep c vs memo st = .ok (out, vs', memo', st')) :
    st'.instructions = st.instructions ∧ st'.labels = st.labels ∧
    st'.macros = st.macros ∧ st'.maxLabels = st.maxLabels ∧ TraceOK st st' := by
  cases vs with
  | idle =>
    simp only [varStep] at h
    split at h <;>
    · simp only [Except.ok.injEq, Prod.mk.injEq] at h
      obtain ⟨-, -, -, h4⟩ := h
      subst h4
      exact ⟨rfl, rfl, rfl, rfl, TraceOK.refl st⟩
  | dollar =>
    simp only [varStep] at h
    split at h
    · simp only [Except.ok.injEq, Prod.mk.injEq] at h
      obtain ⟨-, -, -, h4⟩ := h
      subst h4
      exact ⟨rfl, rfl, rfl, rfl, TraceOK.refl st⟩
    · split at h <;>
      · simp only [Except.ok.injEq, Prod.mk.injEq] at h
        obtain ⟨-, -, -, h4⟩ := h
        subst h4
        exact ⟨rfl, rfl, rfl, rfl, TraceOK.refl st⟩
  | word acc =>
    simp only [varStep] at h
    split at h
    · simp only [Except.ok.injEq, Prod.mk.injEq] at h
      obtain ⟨-, -, -, h4⟩ := h
      subst h4
      exact ⟨rfl, rfl, rfl, rfl, TraceOK.refl st⟩
    · split at h
      · cases h
      · rename_i zv memo1 st1 hclo
        obtain ⟨hi, hlb, hmc, hml, htr⟩ := autoVarClosure_spec hclo
        split at h <;>
        · simp only [Except.ok.injEq, Prod.mk.injEq] at h
          obtain ⟨-, -, h3, h4⟩ := h
          subst h3; subst h4
          exact ⟨hi, hlb, hmc, hml, htr⟩

theorem varFlush_spec {vs : VScan} {memo : List (String × Nat)} {st : AsmSt}
    {out : List Char} {memo' : List (String × Nat)} {st' : AsmSt}
    (h : varFlush vs memo st = .ok (out, memo', st')) :
    st'.instructions = st.instructions ∧ st'.labels = st.labels ∧
    st'.macros = st.macros ∧ st'.maxLabels = st.maxLabels ∧ TraceOK st st' := by
  cases vs with
  | idle =>
    simp only [varFlush, Except.ok.injEq, Prod.mk.injEq] at h
    obtain ⟨-, -, h4⟩ := h
    subst h4
    exact ⟨rfl, rfl, rfl, rfl, TraceOK.refl st⟩
  | dollar =>
    simp only [varFlush, Except.ok.injEq, Prod.mk.injEq] at h
    obtain ⟨-, -, h4⟩ := h
    subst h4
    exact ⟨rfl, rfl, rfl, rfl, TraceOK.refl st⟩
  | word acc => exact autoVarClosure_spec h

/-- The auto-variable substitution pass touches only `maxTempVar` and the
trace, within the counter discipline. -/
theorem autoVarAux_spec : ∀ (cs : List Char) (vs : VScan) (memo : List (String × Nat))
    (st : AsmSt) {out : List Char} {memo' : List (String × Nat)} {st' : AsmSt},
    autoVarAux cs vs memo st = .ok (out, memo', st') →
    st'.instructions = st.instructions ∧ st'.labels = st.labels ∧
    st'.macros = st.macros ∧ st'.maxLabels = st.maxLabels ∧ TraceOK st st' := by
  intro cs
  induction cs with
  | nil =>
    intro vs memo st out memo' st' h
    exact varFlush_spec h
  | cons c rest ih =>
    intro vs memo st out memo' st' h
    simp only [autoVarAux] at h
    split at h
    · cases h
    · rename_i out1 vs' memo1 st1 hstep
      split at h
      · cases h
      · rename_i outR memoR stR hrec
        simp only [Except.ok.injEq, Prod.mk.injEq] at h
        obtain ⟨-, -, h4⟩ := h
        subst h4
        obtain ⟨hi1, hlb1, hmc1, hml1, htr1⟩ := varStep_spec hstep
        obtain ⟨hi2, hlb2, hmc2, hml2, htr2⟩ := ih vs' memo1 st1 hrec
        exact ⟨hi2.trans hi1, hlb2.trans hlb1, hmc2.trans hmc1, hml2.trans hml1,
          htr1.trans htr2⟩

/-- One template line of an expansion obeys the counter discipline, given
that the nested-expansion continuation does. -/
theorem processLine_spec
    {recur : MacroDef → List (List Char) → AsmSt → Except PErr AsmSt}
    (hrec : ∀ m' caps' s s', recur m' caps' s = .ok s' → s.maxLabels.length = 5 →
      s'.maxLabels.length = 5 ∧ TraceOK s s')
    {macros : List MacroDef} {m : MacroDef} {caps : List (List Char)} {lineNum : Nat}
    {tmpl : List Char} {memoL : List (Nat × Nat)} {memoV : List (String × Nat)}
    {st : AsmSt} {memoL' : List (Nat × Nat)} {memoV' : List (String × Nat)} {st' : AsmSt}
    (h : processLine recur macros m caps lineNum tmpl memoL memoV st = .ok (memoL', memoV', st'))
    (hlen : st.maxLabels.length = 5) :
    st'.maxLabels.length = 5 ∧ TraceOK st st' := by
  unfold processLine at h
  split at h
  · cases h
  rename_i s1 memoL1 st1 h1
  obtain ⟨-, -, -, -, hln1, htr1⟩ := autoLabAux_spec _ _ _ _ h1 trivial hlen
  split at h
  · cases h
  rename_i s2 labels' h2
  split at h
  · cases h
  rename_i s3 h3
  split at h
  · cases h
  rename_i s4 memoV1 st2 h4
  obtain ⟨hi4, -, -, hml4, htr4⟩ := autoVarAux_spec _ _ _ _ h4
  have hmid : TraceOK st1 { st1 with labels := labels' } := TraceOK.of_eq rfl rfl rfl
  have hln2 : st2.maxLabels.length = 5 := by rw [hml4]; exact hln1
  have htr12 : TraceOK st st2 := (htr1.trans hmid).trans htr4
  split at h
  · cases h
  · rename_i i h5
    simp only [Except.ok.injEq, Prod.mk.injEq] at h
    obtain ⟨-, -, h7⟩ := h
    subst h7
    exact ⟨hln2, htr12.trans (TraceOK.of_eq rfl rfl rfl)⟩
  · rename_i h5
    split at h
    · cases h
    · rename_i m' caps' h6
      split at h
      · cases h
      · rename_i st3 h7
        simp only [Except.ok.injEq, Prod.mk.injEq] at h
        obtain ⟨-, -, h8⟩ := h
        subst h8
        obtain ⟨hln3, htr3⟩ := hrec _ _ _ _ h7 hln2
        exact ⟨hln3, htr12.trans htr3⟩
    · rename_i h6
      simp only [Except.ok.injEq, Prod.mk.injEq] at h
      obtain ⟨-, -, h8⟩ := h
      subst h8
      exact ⟨hln2, htr12⟩

theorem expandBody_spec
    {recur : MacroDef → List (List Char) → AsmSt → Except PErr AsmSt}
    (hrec : ∀ m' caps' s s', recur m' caps' s = .ok s' → s.maxLabels.length = 5 →
      s'.maxLabels.length = 5 ∧ TraceOK s s')
    {macros : List MacroDef} {m : MacroDef} {caps : List (List Char)} {lineNum : Nat} :
    ∀ (body : List (List Char)) (memoL : List (Nat × Nat)) (memoV : List (String × Nat))
      (st : AsmSt) {st' : AsmSt},
      expandBody recur macros m caps lineNum body memoL memoV st = .ok st' →
      st.maxLabels.length = 5 →
      st'.maxLabels.length = 5 ∧ TraceOK st st' := by
  intro body
  induction body with
  | nil =>
    intro memoL memoV st st' h hlen
    simp only [expandBody, Except.ok.injEq] at h
    subst h
    exact ⟨hlen, TraceOK.refl st⟩
  | cons t rest ih =>
    intro memoL memoV st st' h hlen
    simp only [expandBody] at h
    split at h
    · cases h
    · rename_i memoL1 memoV1 st1 h1
      obtain ⟨hln1, htr1⟩ := processLine_spec hrec h1 hlen
      obtain ⟨hln2, htr2⟩ := ih memoL1 memoV1 st1 h hln1
      exact ⟨hln2, htr1.trans htr2⟩

theorem expandMacro_spec : ∀ (fuel : Nat) (macros : List MacroDef) (m : MacroDef)
    (caps : List (List Char)) (lineNum : Nat) (st : AsmSt) {st' : AsmSt},
    expandMacro fuel macros m caps lineNum st = .ok st' → st.maxLabels.length = 5 →
    st'.maxLabels.length = 5 ∧ TraceOK st st' := by
  intro fuel
  induction fuel with
  | zero =>
    intro macros m caps lineNum st st' h hlen
    simp only [expandMacro] at h
    cases h
  | succ f ihf =>
    intro macros m caps lineNum st st' h hlen
    simp only [expandMacro] at h
    exact expandBody_spec (fun m' caps' s s' hr hl => ihf macros m' caps' lineNum s hr hl)
      m.instructions [] [] st h hlen

theorem parseLine_spec {fuel : Nat} {st : AsmSt} {line : List Char} {lineNum : Nat}
    {st' : AsmSt} (h : parseLine fuel st line lineNum = .ok st')
    (hlen : st.maxLabels.length = 5) :
    st'.maxLabels.length = 5 ∧ TraceOK st st' := by
  unfold parseLine at h
  split at h
  · cases h
  rename_i rest labels' h1
  split at h
  · cases h
  · rename_i i h2
    simp only [Except.ok.injEq] at h
    subst h
    exact ⟨hlen, TraceOK.of_eq rfl rfl rfl⟩
  · rename_i h2
    split at h
    · cases h
    · rename_i m caps h3
      obtain ⟨hln, htr⟩ := expandMacro_spec fuel st.macros m caps lineNum _ h hlen
      exact ⟨hln, (TraceOK.of_eq rfl rfl rfl : TraceOK st { st with labels := labels' }).trans htr⟩
    · cases h

theorem asmLoop_spec {fuel : Nat} : ∀ (lines : List (Nat × List Char)) (st : AsmSt)
    (cur : Option MacroDef) {st' : AsmSt},
    asmLoop fuel lines st cur = .ok st' → st.maxLabels.length = 5 →
    st'.maxLabels.length = 5 ∧ TraceOK st st' := by
  intro lines
  induction lines with
  | nil =>
    intro st cur st' h hlen
    simp only [asmLoop, Except.ok.injEq] at h
    subst h
    exact ⟨hlen, TraceOK.refl st⟩
  | cons p rest ih =>
    obtain ⟨lineNum, line⟩ := p
    intro st cur st' h hlen
    simp only [asmLoop] at h
    split at h
    · exact ih st cur h hlen
    split at h
    · split at h
      · split at h
        · cases h
        · exact ih st _ h hlen
      · split at h
        · split at h
          · obtain ⟨hln, htr⟩ := ih _ none h hlen
            exact ⟨hln, (TraceOK.of_eq rfl rfl rfl).trans htr⟩
          · cases h
        · cases h
    · split at h
      · exact ih st _ h hlen
      · split at h
        · cases h
        · rename_i st1 h1
          obtain ⟨hln1, htr1⟩ := parseLine_spec h1 hlen
          obtain ⟨hln2, htr2⟩ := ih st1 none h hln1
          exact ⟨hln2, htr1.trans htr2⟩

/-!
### Pre-scan bounds: the prescanned maxima dominate every literal occurrence
-/

/-- Well-formedness of a pending `([A-E])(\d+)` attempt: the group is real. -/
def LPendWf : Option (Nat × Option Nat) → Prop
  | some (g, _) => g < 5
  | none => True

theorem pendWf_labFresh (c : Char) : LPendWf (labFresh c) := by
  cases hf : labFresh c with
  | none => trivial
  | some p =>
    obtain ⟨g, x⟩ := p
    exact labFresh_lt hf

theorem labOccsAux_groups : ∀ (cs : List Char) (pend : Option (Nat × Option Nat)),
    LPendWf pend → ∀ p ∈ labOccsAux cs pend, p.1 < 5 := by
  intro cs
  induction cs with
  | nil =>
    intro pend hw p hp
    rcases pend with _ | ⟨g, _ | v⟩ <;> simp [labOccsAux] at hp
    rw [hp]
    exact hw
  | cons c rest ih =>
    intro pend hw p hp
    rcases pend with _ | ⟨g, _ | v⟩
    · exact ih (labFresh c) (pendWf_labFresh c) p hp
    · simp only [labOccsAux] at hp
      split at hp
      · exact ih (some (g, some (digVal c))) hw p hp
      · exact ih (labFresh c) (pendWf_labFresh c) p hp
    · simp only [labOccsAux] at hp
      split at hp
      · exact ih (some (g, some (v * 10 + digVal c))) hw p hp
      · rcases List.mem_cons.1 hp with rfl | hp
        · exact hw
        · exact ih (labFresh c) (pendWf_labFresh c) p hp

theorem lineLabelOccs_groups (cs : List Char) : ∀ p ∈ lineLabelOccs cs, p.1 < 5 :=
  labOccsAux_groups cs none trivial

theorem le_foldl_max : ∀ (l : List Nat) (a : Nat), a ≤ l.foldl Nat.max a := by
  intro l
  induction l with
  | nil => intro a; exact Nat.le_refl a
  | cons x xs ih =>
    intro a
    exact Nat.le_trans (Nat.le_max_left a x) (ih (Nat.max a x))

theorem mem_le_foldl_max : ∀ (l : List Nat) (a v : Nat), v ∈ l → v ≤ l.foldl Nat.max a := by
  intro l
  induction l with
  | nil => intro a v hv; cases hv
  | cons x xs ih =>
    intro a v hv
    rcases List.mem_cons.1 hv with rfl | hv
    · exact Nat.le_trans (Nat.le_max_right a v) (le_foldl_max xs (Nat.max a v))
    · exact ih (Nat.max a x) v hv

theorem bumpLabel_length (ml : List Nat) (g n : Nat) :
    (bumpLabel ml g n).length = ml.length := by
  unfold bumpLabel
  split <;> simp

theorem getD_le_bumpLabel (ml : List Nat) (g n g' : Nat) :
    ml.getD g' 0 ≤ (bumpLabel ml g n).getD g' 0 := by
  unfold bumpLabel
  split
  · rename_i hlt
    by_cases hg : g < ml.length
    · by_cases hgg : g = g'
      · subst hgg
        rw [getD_set_self _ hg]
        omega
      · rw [getD_set_ne _ hgg]
    · rw [List.set_eq_of_length_le (by omega)]
  · exact Nat.le_refl _

theorem le_getD_bumpLabel_self (ml : List Nat) (g n : Nat) (hg : g < ml.length) :
    n ≤ (bumpLabel ml g n).getD g 0 := by
  unfold bumpLabel
  split
  · rename_i hlt
    rw [getD_set_self _ hg]
  · rename_i hlt
    omega

/-- The label fold of one pre-scan line. -/
def foldLabs (ml : List Nat) (ls : List (Nat × Nat)) : List Nat :=
  ls.foldl (fun acc p => bumpLabel acc p.1 p.2) ml

theorem foldLabs_length : ∀ (ls : List (Nat × Nat)) (ml : List Nat),
    (foldLabs ml ls).length = ml.length := by
  intro ls
  induction ls with
  | nil => intro ml; rfl
  | cons q rest ih =>
    intro ml
    show (foldLabs (bumpLabel ml q.1 q.2) rest).length = ml.length
    rw [ih, bumpLabel_length]

theorem getD_le_foldLabs : ∀ (ls : List (Nat × Nat)) (ml : List Nat) (g : Nat),
    ml.getD g 0 ≤ (foldLabs ml ls).getD g 0 := by
  intro ls
  induction ls with
  | nil => intro ml g; exact Nat.le_refl _
  | cons q rest ih =>
    intro ml g
    exact Nat.le_trans (getD_le_bumpLabel ml q.1 q.2 g) (ih (bumpLabel ml q.1 q.2) g)

theorem mem_le_foldLabs : ∀ (ls : List (Nat × Nat)) (ml : List Nat),
    (∀ p ∈ ls, p.1 < 5) → ml.length = 5 →
    ∀ p ∈ ls, p.2 ≤ (foldLabs ml ls).getD p.1 0 := by
  intro ls
  induction ls with
  | nil => intro ml _ _ p hp; cases hp
  | cons q rest ih =>
    intro ml hg hml p hp
    rcases List.mem_cons.1 hp with rfl | hp
    · have h1 : p.2 ≤ (bumpLabel ml p.1 p.2).getD p.1 0 :=
        le_getD_bumpLabel_self ml p.1 p.2 (by rw [hml]; exact hg p (List.mem_cons_self ..))
      exact Nat.le_trans h1 (getD_le_foldLabs rest (bumpLabel ml p.1 p.2) p.1)
    · exact ih (bumpLabel ml q.1 q.2) (fun r hr => hg r (List.mem_cons_of_mem q hr))
        (by rw [bumpLabel_length]; exact hml) p hp

theorem prescanLine_spec {line : List Char} {mt : Nat} {ml : List Nat}
    {mt' : Nat} {ml' : List Nat}
    (h : prescanLine line mt ml = .ok (mt', ml')) (hml : ml.length = 5) :
    ml'.length = 5 ∧ mt ≤ mt' ∧ (∀ g, ml.getD g 0 ≤ ml'.getD g 0) ∧
    (∀ v ∈ lineTempOccs line, v ≤ mt') ∧
    (∀ p ∈ lineLabelOccs line, p.2 ≤ ml'.getD p.1 0) := by
  unfold prescanLine at h
  split at h
  · cases h
  split at h
  · cases h
  simp only [Except.ok.injEq, Prod.mk.injEq] at h
  obtain ⟨h1, h2⟩ := h
  subst h1
  subst h2
  refine ⟨?_, le_foldl_max _ _, fun g => getD_le_foldLabs _ _ _,
    fun v hv => mem_le_foldl_max _ _ _ hv,
    mem_le_foldLabs _ _ (lineLabelOccs_groups line) hml⟩
  show (foldLabs ml (lineLabelOccs line)).length = 5
  rw [foldLabs_length, hml]

theorem prescan_spec : ∀ (lines : List (List Char)) (mt : Nat) (ml : List Nat)
    {mt' : Nat} {ml' : List Nat},
    prescan lines mt ml = .ok (mt', ml') → ml.length = 5 →
    ml'.length = 5 ∧ mt ≤ mt' ∧ (∀ g, ml.getD g 0 ≤ ml'.getD g 0) ∧
    (∀ line ∈ lines, (∀ v ∈ lineTempOccs line, v ≤ mt') ∧
      (∀ p ∈ lineLabelOccs line, p.2 ≤ ml'.getD p.1 0)) := by
  intro lines
  induction lines with
  | nil =>
    intro mt ml mt' ml' h hml
    simp only [prescan, Except.ok.injEq, Prod.mk.injEq] at h
    obtain ⟨h1, h2⟩ := h
    subst h1; subst h2
    exact ⟨hml, Nat.le_refl _, fun g => Nat.le_refl _, fun line hl => by cases hl⟩
  | cons l rest ih =>
    intro mt ml mt' ml' h hml
    simp only [prescan] at h
    split at h
    · rename_i mt1 ml1 h1
      obtain ⟨hml1, hmt1, hmono1, htv1, hlv1⟩ := prescanLine_spec h1 hml
      obtain ⟨hml2, hmt2, hmono2, hlines⟩ := ih mt1 ml1 h hml1
      refine ⟨hml2, Nat.le_trans hmt1 hmt2,
        fun g => Nat.le_trans (hmono1 g) (hmono2 g), fun line hl => ?_⟩
      rcases List.mem_cons.1 hl with rfl | hl
      · exact ⟨fun v hv => Nat.le_trans (htv1 v hv) hmt2,
          fun p hp => Nat.le_trans (hlv1 p hp) (hmono2 p.1)⟩
      · exact hlines line hl
    · cases h

theorem mem_labPairs {tr : List Ev} {g n : Nat} :
    (g, n) ∈ labPairs tr ↔ Ev.lab g n ∈ tr := by
  unfold labPairs
  rw [List.mem_filterMap]
  constructor
  · rintro ⟨e, he, heq⟩
    cases e with
    | lab g' n' =>
      simp only [Option.some.injEq, Prod.mk.injEq] at heq
      obtain ⟨rfl, rfl⟩ := heq
      exact he
    | tmp k => cases heq
  · intro h
    exact ⟨Ev.lab g n, h, rfl⟩

theorem mem_labNums_of_lab {tr : List Ev} {g n : Nat} (h : Ev.lab g n ∈ tr) :
    n ∈ labNums g tr := by
  unfold labNums
  rw [List.mem_filterMap]
  exact ⟨Ev.lab g n, h, by simp⟩

theorem mem_tmpNums {tr : List Ev} {n : Nat} :
    n ∈ tmpNums tr ↔ Ev.tmp n ∈ tr := by
  unfold tmpNums
  rw [List.mem_filterMap]
  constructor
  · rintro ⟨e, he, heq⟩
    cases e with
    | lab g' n' => cases heq
    | tmp k =>
      simp only [Option.some.injEq] at heq
      subst heq
      exact he
  · intro h
    exact ⟨Ev.tmp n, h, rfl⟩

theorem labNums_cons_lab_self (g n : Nat) (tr : List Ev) :
    labNums g (Ev.lab g n :: tr) = n :: labNums g tr := by
  simp [labNums, List.filterMap_cons]

theorem labNums_cons_lab_ne {g g' : Nat} (hne : g ≠ g') (n : Nat) (tr : List Ev) :
    labNums g' (Ev.lab g n :: tr) = labNums g' tr := by
  simp [labNums, List.filterMap_cons, hne]

theorem labNums_cons_tmp (g n : Nat) (tr : List Ev) :
    labNums g (Ev.tmp n :: tr) = labNums g tr := by
  simp [labNums, List.filterMap_cons]

/-- If each group's allocation numbers are strictly increasing, the
generated (group, number) pairs are pairwise distinct. -/
theorem labPairs_pairwise_ne : ∀ {tr : List Ev},
    (∀ g, (labNums g tr).Pairwise (· < ·)) → (labPairs tr).Pairwise (· ≠ ·) := by
  intro tr
  induction tr with
  | nil => intro _; constructor
  | cons e rest ih =>
    intro h
    cases e with
    | tmp n =>
      rw [show labPairs (Ev.tmp n :: rest) = labPairs rest from by
        simp [labPairs, List.filterMap_cons]]
      exact ih (fun g => by rw [← labNums_cons_tmp g n rest]; exact h g)
    | lab g n =>
      rw [show labPairs (Ev.lab g n :: rest) = (g, n) :: labPairs rest from by
        simp [labPairs, List.filterMap_cons]]
      refine List.Pairwise.cons ?_ (ih fun g' => ?_)
      · rintro ⟨g', n'⟩ hq heq
        simp only [Prod.mk.injEq] at heq
        obtain ⟨rfl, rfl⟩ := heq
        have hmem : n ∈ labNums g rest := mem_labNums_of_lab (mem_labPairs.1 hq)
        have hh := h g
        rw [labNums_cons_lab_self] at hh
        exact absurd ((List.pairwise_cons.1 hh).1 n hmem) (Nat.lt_irrefl n)
      · by_cases hgg : g = g'
        · subst hgg
          have hh := h g
          rw [labNums_cons_lab_self] at hh
          exact (List.pairwise_cons.1 hh).2
        · have hh := h g'
          rwa [labNums_cons_lab_ne hgg] at hh

/-- C1: hygiene of macro expansion.  For every program assembled from the
prologue plus any user source: the generated labels recorded in the
allocation trace are pairwise distinct (across different macros, repeated
invocations and recursive self-invocation alike), the generated temp
variables are pairwise distinct, and no generated label or temp variable
coincides with one written literally anywhere in the raw prologue-plus-user
source (literal occurrences being what the counting pre-pass regexes
`([A-E])(\d+)` and `\bz(\d+)\b` match).  The proof: the pre-scan seeds each
freshness counter at or above every literal occurrence, and every
allocation hands out `counter + 1` while bumping the counter, so all
allocated numbers per group form a strictly increasing chain starting
strictly above the pre-scanned maximum. -/
theorem C1_hygiene (user : List String) (fuel : Nat) (st : AsmSt)
    (h : fromFile fuel user = .ok st) :
    ((labPairs st.trace).Pairwise (· ≠ ·)) ∧
    ((tmpNums st.trace).Pairwise (· ≠ ·)) ∧
    (∀ line ∈ prologueLines ++ user, ∀ occ ∈ lineLabelOccs line.toList,
      ∀ gen ∈ labPairs st.trace, gen ≠ occ) ∧
    (∀ line ∈ prologueLines ++ user, ∀ v ∈ lineTempOccs line.toList,
      ∀ t ∈ tmpNums st.trace, t ≠ v) := by
  unfold fromFile at h
  split at h
  · cases h
  rename_i mt ml hpres
  obtain ⟨hml5, -, -, hocc⟩ := prescan_spec _ _ _ hpres (by decide)
  obtain ⟨-, htr⟩ := asmLoop_spec _ _ _ h hml5
  obtain ⟨Δ, hΔ, hchL, hchT⟩ := htr
  have htrace : st.trace = Δ := by simpa using hΔ
  rw [htrace] at *
  have hchL' : ∀ g, Chain (ml.getD g 0) (labNums g Δ) (st.maxLabels.getD g 0) := hchL
  have hchT' : Chain mt (tmpNums Δ) st.maxTempVar := hchT
  refine ⟨labPairs_pairwise_ne (fun g => (hchL' g).pairwise), hchT'.pairwise.imp Nat.ne_of_lt,
    ?_, ?_⟩
  · intro line hline occ hoccm gen hgen heq
    obtain ⟨g, n⟩ := gen
    subst heq
    have h1 : n ∈ labNums g Δ := mem_labNums_of_lab (mem_labPairs.1 hgen)
    have h2 : ml.getD g 0 < n := ((hchL' g).mem h1).1
    have h3 : n ≤ ml.getD g 0 := by
      have := (hocc line.toList (List.mem_map_of_mem String.toList hline)).2 (g, n) hoccm
      exact this
    omega
  · intro line hline v hvm t htm heq
    subst heq
    have h1 : Ev.tmp t ∈ Δ := mem_tmpNums.1 htm
    have h2 : mt < t := (hchT'.mem (mem_tmpNums.2 h1)).1
    have h3 : t ≤ mt :=
      (hocc line.toList (List.mem_map_of_mem String.toList hline)).1 t hvm
    omega

/-- The program assembled from the user source `y <- x1`: its expansion
invokes the copy macro, which recursively invokes the zeroing and `goto`
macros, allocating 6 labels and 5 temp variables. -/
def copyAsmSt : AsmSt :=
  match fromFile 99 ["y <- x1"] with
  | .ok st => st
  | .error _ => emptySt

set_option maxRecDepth 8000 in
/-- C1 witness: the hygiene theorem applied to the assembly of `y <- x1`,
whose trace holds 11 allocation events. -/
theorem C1_hygiene_witness :
    ((labPairs copyAsmSt.trace).Pairwise (· ≠ ·)) ∧
    ((tmpNums copyAsmSt.trace).Pairwise (· ≠ ·)) ∧
    (∀ line ∈ prologueLines ++ ["y <- x1"], ∀ occ ∈ lineLabelOccs line.toList,
      ∀ gen ∈ labPairs copyAsmSt.trace, gen ≠ occ) ∧
    (∀ line ∈ prologueLines ++ ["y <- x1"], ∀ v ∈ lineTempOccs line.toList,
      ∀ t ∈ tmpNums copyAsmSt.trace, t ≠ v) ∧
    copyAsmSt.trace.length = 11 := by
  have H := C1_hygiene ["y <- x1"] 99 copyAsmSt (by decide)
  exact ⟨H.1, H.2.1, H.2.2.1, H.2.2.2, by decide⟩

/-- C9: asymmetric handling of unmatched lines.  In the outer assembly pass
(`parse_line`), a line that — after label stripping and trimming — parses as
no primitive and matches no known macro aborts with the
`Expression ... is not a valid instruction` syntax error carrying the
line's source number.  During nested macro expansion (`expand_macro`'s
per-line processing), a template line that after auto-label substitution,
label stripping, placeholder replacement and auto-variable substitution
parses as no primitive and matches no macro is silently dropped: the call
returns `ok` with the instruction list exactly as before the line.  (The
`maxLabels.length = 5` hypothesis reflects the Rust field type
`[usize; 5]`.) -/
theorem C9_unmatched_line_asymmetry :
    (∀ (fuel : Nat) (st : AsmSt) (line : List Char) (lineNum : Nat) (rest : List Char)
      (labels' : List (LabelCode × Nat)),
      findLabel line st.instructions.length st.labels lineNum = .ok (rest, labels') →
      Instr.parse (trimChars rest) lineNum = .ok none →
      firstMatch st.macros (trimChars rest) = .ok none →
      parseLine fuel st line lineNum =
        .error (.perr (String.mk ("Expression ".toList ++ trimChars rest ++
          " is not a valid instruction".toList)) lineNum)) ∧
    (∀ (recur : MacroDef → List (List Char) → AsmSt → Except PErr AsmSt)
      (macros : List MacroDef) (m : MacroDef) (caps : List (List Char)) (lineNum : Nat)
      (tmpl : List Char) (memoL : List (Nat × Nat)) (memoV : List (String × Nat))
      (st : AsmSt) (s1 : List Char) (memoL' : List (Nat × Nat)) (st1 : AsmSt)
      (s2 : List Char) (labels' : List (LabelCode × Nat)) (s3 : List Char)
      (s4 : List Char) (memoV' : List (String × Nat)) (st2 : AsmSt),
      st.maxLabels.length = 5 →
      autoLabAux tmpl .idle memoL st = .ok (s1, memoL', st1) →
      findLabel s1 st1.instructions.length st1.labels lineNum = .ok (s2, labels') →
      applyReplacements m.replacements caps (trimChars s2) = .ok s3 →
      autoVarAux s3 .idle memoV { st1 with labels := labels' } = .ok (s4, memoV', st2) →
      Instr.parse s4 lineNum = .ok none →
      firstMatch macros s4 = .ok none →
      processLine recur macros m caps lineNum tmpl memoL memoV st =
        .ok (memoL', memoV', st2) ∧ st2.instructions = st.instructions) := by
  constructor
  · intro fuel st line lineNum rest labels' h1 h2 h3
    unfold parseLine
    simp only [h1, h2, h3]
  · intro recur macros m caps lineNum tmpl memoL memoV st s1 memoL' st1 s2 labels' s3
      s4 memoV' st2 hlen h1 h2 h3 h4 h5 h6
    constructor
    · unfold processLine
      simp only [h1, h2, h3, h4, h5, h6]
    · obtain ⟨hi1, -, -, -, -, -⟩ := autoLabAux_spec _ _ _ _ h1 trivial hlen
      obtain ⟨hi2, -, -, -, -⟩ := autoVarAux_spec _ _ _ _ h4
      rw [hi2]
      exact hi1

set_option maxRecDepth 8000 in
/-- C9 witness: the line `!!`, which is no primitive and matches no macro,
aborts the outer pass with the syntax error, and is silently dropped (state
returned unchanged) when processed as a macro template line. -/
theorem C9_unmatched_line_asymmetry_witness :
    parseLine 0 emptySt "!!".toList 7 =
      .error (.perr "Expression !! is not a valid instruction" 7) ∧
    processLine (fun _ _ s => .ok s) [] (macroParse "foo {a}".toList) ["y".toList] 7
      "!!".toList [] [] emptySt = .ok ([], [], emptySt) ∧
    emptySt.instructions = emptySt.instructions := by
  refine ⟨?_, ?_⟩
  · have h := C9_unmatched_line_asymmetry.1 0 emptySt "!!".toList 7 "!!".toList []
      (by decide) (by decide) (by decide)
    rw [h]
    rfl
  · have h := C9_unmatched_line_asymmetry.2 (fun _ _ s => .ok s) []
      (macroParse "foo {a}".toList) ["y".toList] 7 "!!".toList [] [] emptySt
      "!!".toList [] emptySt "!!".toList [] "!!".toList "!!".toList [] emptySt
      (by decide) (by decide) (by decide) (by decide) (by decide) (by decide) (by decide)
    exact ⟨h.1, h.2⟩

end Slang

set_option maxRecDepth 8000 in
example : Slang.prologueOnlyCheck = true := by decide
set_option maxRecDepth 8000 in
example : Slang.copyRunCheck = true := by decide
set_option maxRecDepth 8000 in
example : Slang.fromFile 99 ["nop", "nop", "nop", "nop", "nop", "@foo"] =
    .error (.perr "Unknown directive" 113) := by decide

-- macro engine sanity examples
example : (Slang.macroParse "goto {label}".toList).pattern =
    [.lit "goto ".toList, .cap, .lit []] := by decide
example : (Slang.macroParse "goto {label}".toList).replacements = [("label", 0)] := by decide
example : (Slang.macroParse "{v} <- {a} + {b}".toList).pattern =
    [.lit [], .cap, .lit " <- ".toList, .cap, .lit " + ".toList, .cap, .lit []] := by decide
example : (Slang.macroParse "{v} <- {a} + {b}".toList).replacements =
    [("v", 0), ("a", 1), ("b", 2)] := by decide
example : Slang.patternCaptures (Slang.macroParse "{v} <- {a} + {b}".toList)
    "y <- x1 + z2".toList = .ok (some ["y".toList, "x1".toList, "z2".toList]) := by decide
example : Slang.patternCaptures (Slang.macroParse "{v} <- {a} + {b}".toList)
    "y <- x1 - z2".toList = .ok none := by decide
example : Slang.patternCaptures (Slang.macroParse "{v} <- 0".toList)
    "z3 <- 0".toList = .ok (some ["z3".toList]) := by decide
example : Slang.patternCaptures (Slang.macroParse "foo{a}bar".toList)
    "fooxybar".toList = .ok (some ["xy".toList]) := by decide
example : (Slang.macroParse "foo {a}".toList).replacements = [("a", 0)] := by decide

-- machine sanity examples
example : Slang.step ⟨[.nop], []⟩ ⟨[], [], 0, 0⟩ = some ⟨[], [], 0, 1⟩ := by decide
example : Slang.step ⟨[.increment (.X 2)], []⟩ ⟨[], [], 0, 0⟩ =
    some ⟨[0, 1], [], 0, 1⟩ := by decide
example : Slang.step ⟨[.increment (.X 0)], []⟩ ⟨[], [], 0, 0⟩ = none := by decide
example : Slang.step ⟨[.decrement .Y], []⟩ ⟨[], [], 0, 0⟩ =
    some ⟨[], [], 0, 1⟩ := by decide
example : Slang.step ⟨[.jumpNonZero .Y 3], [(3, 9)]⟩ ⟨[], [], 5, 0⟩ =
    some ⟨[], [], 5, 9⟩ := by decide
example : Slang.step ⟨[.jumpNonZero .Y 3], []⟩ ⟨[], [], 5, 0⟩ =
    some ⟨[], [], 5, 1⟩ := by decide
example : Slang.step ⟨[.print .Y], []⟩ ⟨[], [], 0, 0⟩ = none := by decide

-- sanity examples for instruction parsing
example : Slang.Instr.parse "x1 <- x1 + 1".toList 0 =
    .ok (some (.increment (.X 1))) := by decide
example : Slang.Instr.parse "x1 <- x2 - 1".toList 0 = .ok none := by decide
example : Slang.Instr.parse "y <- y - 1".toList 3 =
    .ok (some (.decrement .Y)) := by decide
example : Slang.Instr.parse "if z2 != 0 goto B4".toList 0 =
    .ok (some (.jumpNonZero (.Z 2) 21)) := by decide
example : Slang.Instr.parse "if y != 0 goto hello".toList 7 =
    .error (.perr "Invalid label name" 7) := by decide
example : Slang.Instr.parse "nop".toList 0 = .ok (some .nop) := by decide
example : Slang.Instr.parse "print z3".toList 0 =
    .ok (some (.print (.Z 3))) := by decide
example : Slang.Instr.parse "state".toList 0 = .ok (some .state) := by decide
example : Slang.Instr.parse "y2 <- y2 + 1".toList 0 = .ok none := by decide
example : Slang.Instr.parse "x0 <- x0 + 1".toList 0 =
    .ok (some (.increment (.X 0))) := by decide
example : Slang.Variable.parse "x0".toList 0 = .ok (.X 0) := by decide

-- sanity examples for the base layer
example : Slang.natChars 1205 = ['1', '2', '0', '5'] := by decide
example : Slang.parseUsize ['0', '4', '2'] = some 42 := by decide
example : Slang.parseUsize ['+', '7'] = some 7 := by decide
example : Slang.parseUsize [] = none := by decide
example : Slang.parseUsize ['x'] = none := by decide
example : Slang.parseUsize (Slang.natChars (Slang.USIZE_MAX + 1)) = none := by decide
example : Slang.trimChars "  ab c ".toList = "ab c".toList := by decide
example : Slang.strReplace ['a'] "y".toList "state".toList = "styte".toList := by decide
